import Mathlib

/-!
Verification of the gitscan repository scanner against its specification.

The definitions below are shallow embeddings of the Go source:
`scanner/scanner.go` (data model, go.mod parsing, graph algorithms),
`scanner/git.go` and `scanner/git_cli.go` (status backends), and
`cmd/shared.go` (duration parsing).  Go maps are modelled as functions
plus an explicit iteration-order parameter wherever the Go code ranges
over a map (Go map iteration order is unspecified); Go slices are Lean
lists; Go `int` is `Int`.  The Go standard-library `strings` helpers are
modelled executably over the character data of a `String` (Lean's own
`String.trim` etc. do not reduce definitionally, so we embed the
documented behaviour of the Go functions directly).
-/

namespace GitScan

/-! ### Models of the Go `strings` standard-library helpers -/

/-- Model of `strings.TrimSpace` on character data: remove leading and
trailing whitespace. -/
def trimList (cs : List Char) : List Char :=
  ((cs.dropWhile Char.isWhitespace).reverse.dropWhile Char.isWhitespace).reverse

/-- Model of `strings.TrimSpace`. -/
def strTrim (s : String) : String := ⟨trimList s.data⟩

/-- Model of `strings.HasPrefix`. -/
def strStartsWith (s p : String) : Bool := p.data.isPrefixOf s.data

/-- Model of slicing off a known prefix of `n` characters
(`strings.CutPrefix` / `strings.TrimPrefix` once the prefix is known to
be present). -/
def strDrop (s : String) (n : Nat) : String := ⟨s.data.drop n⟩

/-- Model of `strings.Contains`: some tail of `s` has `sub` as a prefix. -/
def strContainsSub (s sub : String) : Bool :=
  s.data.tails.any (fun t => sub.data.isPrefixOf t)

/-- Splits character data at every occurrence of the separator character;
model of `strings.Split` with a one-character separator. -/
def splitOnChar (c : Char) : List Char → List (List Char)
  | [] => [[]]
  | x :: xs =>
    let r := splitOnChar c xs
    if x == c then [] :: r
    else
      match r with
      | [] => [[x]]
      | h :: t => (x :: h) :: t

/-- Model of `strings.Split s "\n"`. -/
def strSplitLines (s : String) : List String :=
  (splitOnChar '\n' s.data).map (fun cs => ⟨cs⟩)

/-- Model of `strings.Fields`: maximal runs of non-whitespace characters. -/
def strFields (s : String) : List String :=
  (((s.data.splitOnP Char.isWhitespace).filter (fun w => w ≠ [])).map (fun cs => (⟨cs⟩ : String)))

/-! ### Data model (scanner/scanner.go) -/

/-- Embeds `GoModResult` from scanner/scanner.go: analysis results for a
single go.mod file. -/
structure GoModResult where
  Path : String
  ModuleName : String
  Dependencies : List String
  ReplaceCount : Nat
deriving DecidableEq, Repr

/-- Embeds `RepoResult` from scanner/scanner.go: the analysis results for a
single repository.  `LatestModTime` is modelled as an integer timestamp;
it plays no role in the claims below. -/
structure RepoResult where
  Name : String := ""
  Path : String := ""
  IsGitRepo : Bool := false
  HasGoMod : Bool := false
  HasUncommittedChanges : Bool := false
  HasUnpushedCommits : Bool := false
  HasReplaceDirectives : Bool := false
  HasModuleMismatch : Bool := false
  ModuleName : String := ""
  ReplaceCount : Nat := 0
  Dependencies : List String := []
  GoModFiles : List GoModResult := []
  LatestModTime : Int := 0
deriving DecidableEq, Repr

/-- Embeds `RepoResult.HasDependency`: checks the root dependency list and
then every nested go.mod file's dependency list. -/
def RepoResult.HasDependency (r : RepoResult) (modulePath : String) : Bool :=
  if r.Dependencies.contains modulePath then true
  else r.GoModFiles.any (fun gm => gm.Dependencies.contains modulePath)

/-! ### Manifest parsing (`analyzeGoMod`, scanner/scanner.go) -/

/-- Embeds `parseRequireLine`: trims the line, drops blank and comment
lines, and returns the first whitespace-delimited field. -/
def parseRequireLine (line : String) : String :=
  let line := strTrim line
  if line == "" || strStartsWith line "//" then ""
  else
    match strFields line with
    | [] => ""
    | p :: _ => p

/-- Parser state of `analyzeGoMod`: accumulated fields plus the two block
flags tracked across lines. -/
structure GoModState where
  moduleName : String := ""
  replaceCount : Nat := 0
  dependencies : List String := []
  inReplaceBlock : Bool := false
  inRequireBlock : Bool := false
deriving DecidableEq, Repr

/-- Appends a parsed require dependency when non-empty (the
`if dep != ""` guards in `analyzeGoMod`). -/
def requireAppend (st : GoModState) (dep : String) : GoModState :=
  if dep == "" then st else { st with dependencies := st.dependencies ++ [dep] }

/-- Phase 1 of the `analyzeGoMod` loop body: the module-identity check
(`strings.CutPrefix(line, "module ")`). -/
def stepModule (line : String) (st : GoModState) : GoModState :=
  if strStartsWith line "module " then { st with moduleName := strTrim (strDrop line 7) }
  else st

/-- Phase 2: counting a single-line replace directive. -/
def stepSingleReplace (line : String) (st : GoModState) : GoModState :=
  if strStartsWith line "replace " && !strStartsWith line "replace (" then
    { st with replaceCount := st.replaceCount + 1 }
  else st

/-- Counting a non-blank non-comment line inside a replace block. -/
def stepCountInBlock (line : String) (st : GoModState) : GoModState :=
  if st.inReplaceBlock && !(line == "") && !strStartsWith line "//" then
    { st with replaceCount := st.replaceCount + 1 }
  else st

/-- Parsing a single-line require directive. -/
def stepSingleRequire (line : String) (st : GoModState) : GoModState :=
  if strStartsWith line "require " && !strStartsWith line "require (" then
    requireAppend st (parseRequireLine (strDrop line 8))
  else st

/-- The require-block open / close / member handling at the end of the
loop body. -/
def stepRequireTail (line : String) (st : GoModState) : GoModState :=
  if strStartsWith line "require (" then { st with inRequireBlock := true }
  else if st.inRequireBlock && line == ")" then { st with inRequireBlock := false }
  else if st.inRequireBlock then requireAppend st (parseRequireLine line)
  else st

/-- Everything after the two `continue`s of the replace-block handling:
the fall-through from in-replace-block counting into require parsing. -/
def stepRest (line : String) (st : GoModState) : GoModState :=
  if strStartsWith line "replace (" then { st with inReplaceBlock := true }
  else if st.inReplaceBlock && line == ")" then { st with inReplaceBlock := false }
  else stepRequireTail line (stepSingleRequire line (stepCountInBlock line st))

/-- Embeds one iteration of the scanner loop in `analyzeGoMod`: the phases
run in the same order, with the same guards and the same `continue`
structure, as the Go code. -/
def goModLine (st : GoModState) (raw : String) : GoModState :=
  stepRest (strTrim raw) (stepSingleReplace (strTrim raw) (stepModule (strTrim raw) st))

/-- Embeds `analyzeGoMod` over the list of lines of the manifest file
(`bufio.Scanner` yields the file line by line). -/
def analyzeGoMod (lines : List String) : String × Nat × List String :=
  let st := lines.foldl goModLine {}
  (st.moduleName, st.replaceCount, st.dependencies)

/-! ### General helper lemmas about the string primitives -/

lemma string_ext {s t : String} (h : s.data = t.data) : s = t := by
  cases s; cases t; exact congrArg String.mk h

lemma length_dropWhile_le (p : Char → Bool) (l : List Char) :
    (l.dropWhile p).length ≤ l.length := by
  induction l with
  | nil => simp
  | cons c t ih =>
      by_cases h : p c
      · simp only [List.dropWhile_cons, h, if_true, List.length_cons]
        omega
      · simp [List.dropWhile_cons, h]

lemma head_false_of_dropWhile {p : Char → Bool} {c : Char} {t : List Char}
    (h : (c :: t).dropWhile p = c :: t) : p c = false := by
  by_contra hc
  have hc' : p c = true := by revert hc; cases p c <;> simp
  rw [List.dropWhile_cons_of_pos hc'] at h
  have := length_dropWhile_le p t
  have h2 := congrArg List.length h
  simp at h2
  omega

lemma trimList_eq_self {l : List Char}
    (h1 : l.dropWhile Char.isWhitespace = l)
    (h2 : l.reverse.dropWhile Char.isWhitespace = l.reverse) : trimList l = l := by
  unfold trimList
  rw [h1, h2, List.reverse_reverse]

lemma isPrefixOf_append_same (a b c : List Char) :
    (a ++ b).isPrefixOf (a ++ c) = b.isPrefixOf c := by
  induction a with
  | nil => rfl
  | cons x xs ih => simp [List.isPrefixOf, ih]

lemma isPrefixOf_self_append (a c : List Char) : a.isPrefixOf (a ++ c) = true := by
  have h := isPrefixOf_append_same a [] c
  simp only [List.append_nil] at h
  rw [h]
  simp [List.isPrefixOf]

lemma isPrefixOf_of_append {a b c : List Char} (h : (a ++ b).isPrefixOf c = true) :
    a.isPrefixOf c = true := by
  induction a generalizing c with
  | nil => simp [List.isPrefixOf]
  | cons x xs ih =>
      cases c with
      | nil => simp [List.isPrefixOf] at h
      | cons y ys =>
          simp only [List.cons_append, List.isPrefixOf, Bool.and_eq_true] at h ⊢
          exact ⟨h.1, ih h.2⟩

/-! ### Claim C10: `HasDependency` checks root and nested manifests -/

/-- Claim C10: `RepoResult.HasDependency m` is true exactly when `m` occurs
in the root dependency list or in the dependency list of some nested
go.mod entry; with no nested manifests it reduces to root membership. -/
theorem hasDependency_iff (r : RepoResult) (m : String) :
    (r.HasDependency m = true ↔ m ∈ r.Dependencies ∨ ∃ gm ∈ r.GoModFiles, m ∈ gm.Dependencies) ∧
    (r.GoModFiles = [] → (r.HasDependency m = true ↔ m ∈ r.Dependencies)) := by
  constructor
  · simp [RepoResult.HasDependency, List.any_eq_true]
  · intro h
    simp [RepoResult.HasDependency, h]

/-- A sample repository fact with a root dependency and a nested manifest,
used to instantiate `hasDependency_iff`. -/
def sampleNestedRepo : RepoResult :=
  { Dependencies := ["x"], GoModFiles := [⟨"sub/go.mod", "msub", ["y"], 0⟩] }

/-- Closed instance of `hasDependency_iff`: a dependency declared only in a
nested manifest is found. -/
theorem hasDependency_iff_witness : sampleNestedRepo.HasDependency "y" = true := by
  refine (hasDependency_iff sampleNestedRepo "y").1.mpr ?_
  exact Or.inr ⟨⟨"sub/go.mod", "msub", ["y"], 0⟩, by simp [sampleNestedRepo], by simp⟩

/-! ### Claim C3: which module-identity declaration wins -/

/-- The effect of one line on the parsed module identity alone. -/
def moduleStep (acc : String) (raw : String) : String :=
  if strStartsWith (strTrim raw) "module " then strTrim (strDrop (strTrim raw) 7) else acc

/-- The module identity declared by a line, if any. -/
def moduleDecl (raw : String) : Option String :=
  if strStartsWith (strTrim raw) "module " then some (strTrim (strDrop (strTrim raw) 7)) else none

lemma requireAppend_moduleName (st : GoModState) (d : String) :
    (requireAppend st d).moduleName = st.moduleName := by
  unfold requireAppend; split <;> rfl

lemma stepRequireTail_moduleName (line : String) (st : GoModState) :
    (stepRequireTail line st).moduleName = st.moduleName := by
  unfold stepRequireTail; split_ifs <;> simp [requireAppend_moduleName]

lemma stepSingleRequire_moduleName (line : String) (st : GoModState) :
    (stepSingleRequire line st).moduleName = st.moduleName := by
  unfold stepSingleRequire; split_ifs <;> simp [requireAppend_moduleName]

lemma stepCountInBlock_moduleName (line : String) (st : GoModState) :
    (stepCountInBlock line st).moduleName = st.moduleName := by
  unfold stepCountInBlock; split_ifs <;> rfl

lemma stepRest_moduleName (line : String) (st : GoModState) :
    (stepRest line st).moduleName = st.moduleName := by
  unfold stepRest
  split_ifs <;>
    simp [stepRequireTail_moduleName, stepSingleRequire_moduleName, stepCountInBlock_moduleName]

lemma stepSingleReplace_moduleName (line : String) (st : GoModState) :
    (stepSingleReplace line st).moduleName = st.moduleName := by
  unfold stepSingleReplace; split_ifs <;> rfl

lemma goModLine_moduleName (st : GoModState) (raw : String) :
    (goModLine st raw).moduleName = moduleStep st.moduleName raw := by
  unfold goModLine moduleStep stepModule
  simp only [stepRest_moduleName, stepSingleReplace_moduleName]
  split_ifs <;> rfl

lemma foldl_goModLine_moduleName (lines : List String) (st : GoModState) :
    (lines.foldl goModLine st).moduleName = lines.foldl moduleStep st.moduleName := by
  induction lines generalizing st with
  | nil => rfl
  | cons l ls ih => simp [List.foldl_cons, ih, goModLine_moduleName]

lemma getLast?_cons_getD (v acc : String) (L : List String) :
    ((v :: L).getLast?).getD acc = (L.getLast?).getD v := by
  cases L with
  | nil => rfl
  | cons b t =>
      rw [List.getLast?_cons_cons]
      rcases List.getLast?_isSome.mpr (List.cons_ne_nil b t) |> Option.isSome_iff_exists.mp with ⟨x, hx⟩
      rw [hx]; rfl

lemma foldl_moduleStep_eq (lines : List String) (acc : String) :
    lines.foldl moduleStep acc = ((lines.filterMap moduleDecl).getLast?).getD acc := by
  induction lines generalizing acc with
  | nil => rfl
  | cons l ls ih =>
      rw [List.foldl_cons, ih]
      by_cases h : strStartsWith (strTrim l) "module " = true
      · have h1 : moduleDecl l = some (strTrim (strDrop (strTrim l) 7)) := by
          simp [moduleDecl, h]
        have h2 : moduleStep acc l = strTrim (strDrop (strTrim l) 7) := by
          simp [moduleStep, h]
        rw [h2, List.filterMap_cons, h1, getLast?_cons_getD]
      · have h1 : moduleDecl l = none := by simp [moduleDecl, h]
        have h2 : moduleStep acc l = acc := by simp [moduleStep, h]
        rw [h2, List.filterMap_cons, h1]

/-- Claim C3 (amended): the parsed `moduleIdentity` is the identity declared
on the LAST module-declaration line of the manifest (each occurrence
overwrites the previous one), not the first. -/
theorem analyzeGoMod_moduleName_last (lines : List String) :
    (analyzeGoMod lines).1 = ((lines.filterMap moduleDecl).getLast?).getD "" := by
  unfold analyzeGoMod
  simp only [foldl_goModLine_moduleName, foldl_moduleStep_eq]

/-- Counterexample to claim C3 as stated: with two module-declaration lines
the parser keeps the identity of the second line, not the first. -/
theorem analyzeGoMod_first_module_cex :
    (analyzeGoMod ["module a", "module b"]).1 = "b" ∧
    (analyzeGoMod ["module a", "module b"]).1 ≠ "a" := by decide

end GitScan
namespace GitScan

/-- A directive payload that is well formed for go.mod purposes: trimmed,
non-blank, not a comment, not directive-prefixed, not a block delimiter. -/
def GoodDirective (d : String) : Prop :=
  d.data.dropWhile Char.isWhitespace = d.data ∧
  d.data.reverse.dropWhile Char.isWhitespace = d.data.reverse ∧
  d ≠ "" ∧ d ≠ ")" ∧
  strStartsWith d "//" = false ∧
  strStartsWith d "replace" = false ∧
  strStartsWith d "(" = false

instance (d : String) : Decidable (GoodDirective d) := by
  unfold GoodDirective; infer_instance

lemma strTrim_eq_self_of_good {d : String} (h : GoodDirective d) : strTrim d = d := by
  exact string_ext (trimList_eq_self h.1 h.2.1)

lemma strTrim_replace_single {d : String} (h : GoodDirective d) :
    strTrim ("replace " ++ d) = "replace " ++ d := by
  apply string_ext
  show trimList (("replace " ++ d).data) = ("replace " ++ d).data
  rw [String.data_append]
  apply trimList_eq_self
  · rw [show ("replace ".data = 'r' :: "eplace ".data) from rfl, List.cons_append]
    apply List.dropWhile_cons_of_neg
    simp
  · obtain ⟨c, t, hct⟩ : ∃ c t, d.data.reverse = c :: t := by
      have hne : d.data ≠ [] := by
        intro hx
        exact h.2.2.1 (string_ext (by simp [hx]))
      cases hdr : d.data.reverse with
      | nil => exact absurd (by simp [← List.reverse_eq_nil_iff, hdr]) hne
      | cons c t => exact ⟨c, t, rfl⟩
    have hc : Char.isWhitespace c = false := by
      apply head_false_of_dropWhile
      rw [← hct]; exact h.2.1
    rw [List.reverse_append, hct, List.cons_append]
    exact List.dropWhile_cons_of_neg (by simp [hc])

lemma requireAppend_replaceCount (st : GoModState) (d : String) :
    (requireAppend st d).replaceCount = st.replaceCount := by
  unfold requireAppend; split <;> rfl

lemma requireAppend_inReplaceBlock (st : GoModState) (d : String) :
    (requireAppend st d).inReplaceBlock = st.inReplaceBlock := by
  unfold requireAppend; split <;> rfl

lemma stepModule_replaceCount (line : String) (st : GoModState) :
    (stepModule line st).replaceCount = st.replaceCount := by
  unfold stepModule; split <;> rfl

lemma stepModule_inReplaceBlock (line : String) (st : GoModState) :
    (stepModule line st).inReplaceBlock = st.inReplaceBlock := by
  unfold stepModule; split <;> rfl

lemma stepSingleRequire_replaceCount (line : String) (st : GoModState) :
    (stepSingleRequire line st).replaceCount = st.replaceCount := by
  unfold stepSingleRequire; split <;> simp [requireAppend_replaceCount]

lemma stepSingleRequire_inReplaceBlock (line : String) (st : GoModState) :
    (stepSingleRequire line st).inReplaceBlock = st.inReplaceBlock := by
  unfold stepSingleRequire; split <;> simp [requireAppend_inReplaceBlock]

lemma stepRequireTail_replaceCount (line : String) (st : GoModState) :
    (stepRequireTail line st).replaceCount = st.replaceCount := by
  unfold stepRequireTail; split_ifs <;> simp [requireAppend_replaceCount]

lemma stepRequireTail_inReplaceBlock (line : String) (st : GoModState) :
    (stepRequireTail line st).inReplaceBlock = st.inReplaceBlock := by
  unfold stepRequireTail; split_ifs <;> simp [requireAppend_inReplaceBlock]

lemma stepCountInBlock_inReplaceBlock (line : String) (st : GoModState) :
    (stepCountInBlock line st).inReplaceBlock = st.inReplaceBlock := by
  unfold stepCountInBlock; split <;> rfl

/-- Processing `"replace " ++ d` outside any replace block counts exactly one
override directive. -/
lemma goModLine_single_replace {d : String} (h : GoodDirective d) (st : GoModState)
    (hrb : st.inReplaceBlock = false) :
    (goModLine st ("replace " ++ d)).replaceCount = st.replaceCount + 1 ∧
    (goModLine st ("replace " ++ d)).inReplaceBlock = false := by
  have gRep : strStartsWith ("replace " ++ d) "replace " = true := by
    unfold strStartsWith
    rw [String.data_append]
    exact isPrefixOf_self_append _ _
  have gRepB : strStartsWith ("replace " ++ d) "replace (" = false := by
    unfold strStartsWith
    rw [show "replace (".data = "replace ".data ++ ['('] from rfl, String.data_append,
      isPrefixOf_append_same]
    exact h.2.2.2.2.2.2
  unfold goModLine
  rw [strTrim_replace_single h]
  have s1count : (stepSingleReplace ("replace " ++ d) (stepModule ("replace " ++ d) st)).replaceCount
      = st.replaceCount + 1 := by
    unfold stepSingleReplace
    rw [gRep, gRepB]
    simp [stepModule_replaceCount]
  have s1block : (stepSingleReplace ("replace " ++ d) (stepModule ("replace " ++ d) st)).inReplaceBlock
      = false := by
    unfold stepSingleReplace
    rw [gRep, gRepB]
    simp [stepModule_inReplaceBlock, hrb]
  unfold stepRest
  rw [gRepB]
  simp only [Bool.false_eq_true, if_false, s1block, Bool.false_and, stepRequireTail_replaceCount,
    stepRequireTail_inReplaceBlock, stepSingleRequire_replaceCount, stepSingleRequire_inReplaceBlock,
    stepCountInBlock_inReplaceBlock]
  refine ⟨?_, trivial⟩
  unfold stepCountInBlock
  rw [s1block]
  simpa using s1count

end GitScan
namespace GitScan

lemma not_replace_space {d : String} (h : GoodDirective d) :
    strStartsWith d "replace " = false := by
  cases hx : strStartsWith d "replace " with
  | false => rfl
  | true =>
      exfalso
      have hp : strStartsWith d "replace" = true := by
        unfold strStartsWith at hx ⊢
        exact isPrefixOf_of_append
          (show ("replace".data ++ [' ']).isPrefixOf d.data = true from hx)
      rw [h.2.2.2.2.2.1] at hp
      exact Bool.false_ne_true hp

lemma not_replace_block {d : String} (h : GoodDirective d) :
    strStartsWith d "replace (" = false := by
  cases hx : strStartsWith d "replace (" with
  | false => rfl
  | true =>
      exfalso
      have hp : strStartsWith d "replace" = true := by
        unfold strStartsWith at hx ⊢
        exact isPrefixOf_of_append
          (show ("replace".data ++ [' ', '(']).isPrefixOf d.data = true from hx)
      rw [h.2.2.2.2.2.1] at hp
      exact Bool.false_ne_true hp

/-- Processing a well-formed payload line inside a replace block counts
exactly one override directive and stays inside the block. -/
lemma goModLine_block_payload {d : String} (h : GoodDirective d) (st : GoModState)
    (hrb : st.inReplaceBlock = true) :
    (goModLine st d).replaceCount = st.replaceCount + 1 ∧
    (goModLine st d).inReplaceBlock = true := by
  have hnotRep := not_replace_space h
  have hnotRepB := not_replace_block h
  have hClose : (d == ")") = false := beq_eq_false_iff_ne.mpr h.2.2.2.1
  have hEmpty : (d == "") = false := beq_eq_false_iff_ne.mpr h.2.2.1
  unfold goModLine
  rw [strTrim_eq_self_of_good h]
  have s1c : (stepSingleReplace d (stepModule d st)).replaceCount = st.replaceCount := by
    unfold stepSingleReplace
    rw [hnotRep]
    simp [stepModule_replaceCount]
  have s1b : (stepSingleReplace d (stepModule d st)).inReplaceBlock = true := by
    unfold stepSingleReplace
    rw [hnotRep]
    simp [stepModule_inReplaceBlock, hrb]
  unfold stepRest
  rw [hnotRepB]
  simp only [Bool.false_eq_true, if_false, s1b, hClose, Bool.true_and,
    stepRequireTail_replaceCount, stepRequireTail_inReplaceBlock,
    stepSingleRequire_replaceCount, stepSingleRequire_inReplaceBlock,
    stepCountInBlock_inReplaceBlock]
  have hcount : (stepCountInBlock d (stepSingleReplace d (stepModule d st))).replaceCount
      = st.replaceCount + 1 := by
    unfold stepCountInBlock
    rw [s1b, hEmpty, h.2.2.2.2.1]
    simpa using s1c
  exact ⟨hcount, trivial⟩

lemma foldl_single_replace (ds : List String) (st : GoModState)
    (hrb : st.inReplaceBlock = false) (h : ∀ d ∈ ds, GoodDirective d) :
    ((ds.map (fun d => "replace " ++ d)).foldl goModLine st).replaceCount
      = st.replaceCount + ds.length ∧
    ((ds.map (fun d => "replace " ++ d)).foldl goModLine st).inReplaceBlock = false := by
  induction ds generalizing st with
  | nil => exact ⟨rfl, hrb⟩
  | cons d ds ih =>
      have hd := h d (by simp)
      obtain ⟨hc, hb⟩ := goModLine_single_replace hd st hrb
      simp only [List.map_cons, List.foldl_cons]
      obtain ⟨ihc, ihb⟩ := ih (goModLine st ("replace " ++ d)) hb (fun x hx => h x (by simp [hx]))
      rw [ihc, hc]
      exact ⟨by simp [List.length_cons]; omega, ihb⟩

lemma foldl_block_payloads (ds : List String) (st : GoModState)
    (hrb : st.inReplaceBlock = true) (h : ∀ d ∈ ds, GoodDirective d) :
    (ds.foldl goModLine st).replaceCount = st.replaceCount + ds.length ∧
    (ds.foldl goModLine st).inReplaceBlock = true := by
  induction ds generalizing st with
  | nil => exact ⟨rfl, hrb⟩
  | cons d ds ih =>
      have hd := h d (by simp)
      obtain ⟨hc, hb⟩ := goModLine_block_payload hd st hrb
      simp only [List.foldl_cons]
      obtain ⟨ihc, ihb⟩ := ih (goModLine st d) hb (fun x hx => h x (by simp [hx]))
      rw [ihc, hc]
      exact ⟨by simp [List.length_cons]; omega, ihb⟩

lemma goModLine_close_block (st : GoModState) (hrb : st.inReplaceBlock = true) :
    (goModLine st ")").replaceCount = st.replaceCount := by
  unfold goModLine
  rw [show strTrim ")" = ")" from rfl]
  have s1 : stepSingleReplace ")" (stepModule ")" st) = st := by
    unfold stepSingleReplace stepModule
    rw [show strStartsWith ")" "module " = false from rfl,
      show strStartsWith ")" "replace " = false from rfl]
    simp
  rw [s1]
  unfold stepRest
  rw [show strStartsWith ")" "replace (" = false from rfl, hrb,
    show ((")" : String) == ")") = true from rfl]
  simp

end GitScan
namespace GitScan

/-- A line that is ignored inside a replace block: blank after trimming, or
a comment line. -/
def IgnorableLine (raw : String) : Prop :=
  strTrim raw = "" ∨ strStartsWith (strTrim raw) "//" = true

instance (raw : String) : Decidable (IgnorableLine raw) := by
  unfold IgnorableLine; infer_instance

/-- Processing an ignorable line inside a replace block neither counts a
directive nor leaves the block. -/
lemma goModLine_block_ignorable {raw : String} (hig : IgnorableLine raw) (st : GoModState)
    (hrb : st.inReplaceBlock = true) :
    (goModLine st raw).replaceCount = st.replaceCount ∧
    (goModLine st raw).inReplaceBlock = true := by
  unfold goModLine
  rcases hig with hb | hc
  · rw [hb]
    have s1 : stepSingleReplace "" (stepModule "" st) = st := by
      unfold stepSingleReplace stepModule
      rw [show strStartsWith "" "module " = false from rfl,
        show strStartsWith "" "replace " = false from rfl]
      simp
    rw [s1]
    unfold stepRest
    rw [show strStartsWith "" "replace (" = false from rfl, hrb,
      show (("" : String) == ")") = false from rfl]
    simp only [Bool.false_eq_true, if_false, Bool.true_and, Bool.and_false,
      stepRequireTail_replaceCount, stepRequireTail_inReplaceBlock,
      stepSingleRequire_replaceCount, stepSingleRequire_inReplaceBlock,
      stepCountInBlock_inReplaceBlock]
    constructor
    · unfold stepCountInBlock
      rw [hrb, show (("" : String) == "") = true from rfl]
      simp
    · exact hrb
  · obtain ⟨s, hs⟩ : ∃ s, (strTrim raw).data = '/' :: '/' :: s := by
      unfold strStartsWith at hc
      obtain ⟨s, hs⟩ := List.isPrefixOf_iff_prefix.mp hc
      exact ⟨s, by rw [← hs]; rfl⟩
    have gMod : strStartsWith (strTrim raw) "module " = false := by
      unfold strStartsWith; rw [hs]; rfl
    have gRep : strStartsWith (strTrim raw) "replace " = false := by
      unfold strStartsWith; rw [hs]; rfl
    have gRepB : strStartsWith (strTrim raw) "replace (" = false := by
      unfold strStartsWith; rw [hs]; rfl
    have gReq : strStartsWith (strTrim raw) "require " = false := by
      unfold strStartsWith; rw [hs]; rfl
    have gReqB : strStartsWith (strTrim raw) "require (" = false := by
      unfold strStartsWith; rw [hs]; rfl
    have gClose : ((strTrim raw) == ")") = false := by
      apply beq_eq_false_iff_ne.mpr
      intro he
      rw [he] at hs
      simp at hs
    have s1 : stepSingleReplace (strTrim raw) (stepModule (strTrim raw) st) = st := by
      unfold stepSingleReplace stepModule
      rw [gMod, gRep]
      simp
    rw [s1]
    unfold stepRest
    rw [gRepB, hrb, gClose]
    simp only [Bool.false_eq_true, if_false, Bool.true_and,
      stepRequireTail_replaceCount, stepRequireTail_inReplaceBlock,
      stepSingleRequire_replaceCount, stepSingleRequire_inReplaceBlock,
      stepCountInBlock_inReplaceBlock]
    constructor
    · unfold stepCountInBlock
      rw [hrb, hc]
      simp
    · exact hrb

end GitScan
namespace GitScan

lemma goModLine_trim {raw : String} (h : GoodDirective (strTrim raw)) (st : GoModState) :
    goModLine st raw = goModLine st (strTrim raw) := by
  unfold goModLine
  rw [strTrim_eq_self_of_good h]

lemma not_good_of_ignorable {raw : String} (hig : IgnorableLine raw) :
    ¬ GoodDirective (strTrim raw) := by
  intro hg
  rcases hig with hb | hc
  · exact hg.2.2.1 hb
  · rw [hg.2.2.2.2.1] at hc
    exact Bool.false_ne_true hc

lemma foldl_block_mixed (ls : List String) (st : GoModState)
    (hrb : st.inReplaceBlock = true)
    (h : ∀ l ∈ ls, GoodDirective (strTrim l) ∨ IgnorableLine l) :
    (ls.foldl goModLine st).replaceCount
      = st.replaceCount + ls.countP (fun l => decide (GoodDirective (strTrim l))) ∧
    (ls.foldl goModLine st).inReplaceBlock = true := by
  induction ls generalizing st with
  | nil => exact ⟨rfl, hrb⟩
  | cons l ls ih =>
      simp only [List.foldl_cons, List.countP_cons]
      rcases h l (by simp) with hg | hig
      · obtain ⟨hc, hb⟩ := goModLine_block_payload hg st hrb
        rw [goModLine_trim hg st]
        obtain ⟨ihc, ihb⟩ := ih (goModLine st (strTrim l)) hb (fun x hx => h x (by simp [hx]))
        refine ⟨?_, ihb⟩
        rw [ihc, hc, decide_eq_true hg]
        simp
        omega
      · obtain ⟨hc, hb⟩ := goModLine_block_ignorable hig st hrb
        obtain ⟨ihc, ihb⟩ := ih (goModLine st l) hb (fun x hx => h x (by simp [hx]))
        refine ⟨?_, ihb⟩
        rw [ihc, hc, decide_eq_false (not_good_of_ignorable hig)]
        simp

theorem analyzeGoMod_override_forms (ds bls : List String)
    (hds : ∀ d ∈ ds, GoodDirective d)
    (hbls : ∀ l ∈ bls, GoodDirective (strTrim l) ∨ IgnorableLine l)
    (hcount : bls.countP (fun l => decide (GoodDirective (strTrim l))) = ds.length) :
    (analyzeGoMod (ds.map (fun d => "replace " ++ d))).2.1 = ds.length ∧
    (analyzeGoMod ("replace (" :: (bls ++ [")"]))).2.1 = ds.length := by
  constructor
  · have h := (foldl_single_replace ds {} rfl hds).1
    unfold analyzeGoMod
    simpa using h
  · unfold analyzeGoMod
    simp only [List.foldl_cons, List.foldl_append]
    have h0 : goModLine {} "replace (" = { inReplaceBlock := true } := by decide
    rw [h0]
    obtain ⟨hc, hb⟩ := foldl_block_mixed bls { inReplaceBlock := true } rfl hbls
    simp only [List.foldl_cons, List.foldl_nil]
    rw [goModLine_close_block _ hb, hc, hcount]
    simp

theorem analyzeGoMod_override_forms_witness :
    (analyzeGoMod ["replace a => ../a", "replace b => ../b"]).2.1 = 2 ∧
    (analyzeGoMod ["replace (", "  a => ../a", "", "  // note", "  b => ../b", ")"]).2.1 = 2 := by
  have h := analyzeGoMod_override_forms ["a => ../a", "b => ../b"]
    ["  a => ../a", "", "  // note", "  b => ../b"]
    (by decide) (by decide) (by decide)
  constructor
  · have h1 := h.1
    simpa using h1
  · have h2 := h.2
    simpa using h2

end GitScan
namespace GitScan

/-! ### Duration parsing (`parseDuration`, cmd/shared.go) -/

/-- Numeric value of a decimal digit string (unbounded; the int64-bounded
readers below are built on it). -/
def digitsVal (ds : List Char) : Nat :=
  ds.foldl (fun a c => a * 10 + (c.toNat - 48)) 0

/-- Effect of `strconv.Atoi` on an all-digit string when the caller
discards the error, as cmd/shared.go does: on a range error `ParseInt`
returns the int64 maximum together with `ErrRange`, so the ignored-error
value is the numeric value clamped to 2^63 - 1. -/
def atoi64 (ds : List Char) : Nat :=
  min (digitsVal ds) (2 ^ 63 - 1)

/-- Two's-complement wrap-around of Go int64 arithmetic
(`time.Duration` multiplication overflows silently). -/
def wrap64 (x : Int) : Int :=
  (x + 2 ^ 63) % 2 ^ 64 - 2 ^ 63

/-- Nanoseconds per unit accepted by Go `time.ParseDuration`
("ns", "us"/"µs", "ms", "s", "m", "h"); day and week units are not
standard and yield `none`. -/
def unitNanos (u : String) : Option Nat :=
  if u == "ns" then some 1
  else if u == "us" then some 1000
  else if u == "µs" then some 1000
  else if u == "ms" then some 1000000
  else if u == "s" then some 1000000000
  else if u == "m" then some 60000000000
  else if u == "h" then some 3600000000000
  else none

/-- The `leadingInt` reader of Go `time.ParseDuration`: accumulates the
uint64 value of a digit run, erroring on int64 overflow (the source
checks `x > 1<<63/10` before and `x > 1<<63` after each step). -/
def leadingIntVal : Nat → List Char → Option Nat
  | x, [] => some x
  | x, c :: cs =>
      if x > 2 ^ 63 / 10 then none
      else if x * 10 + (c.toNat - 48) > 2 ^ 63 then none
      else leadingIntVal (x * 10 + (c.toNat - 48)) cs

/-- One pass of the component loop of Go `time.ParseDuration` restricted
to integer magnitudes, carrying the uint64 accumulator `d`: read a digit
run through `leadingIntVal`, read a unit run, reject the component when
`v > 1<<63/unit` (the pre-multiplication overflow check), accumulate
`d += v*unit` in uint64 and reject when the sum passes `1<<63`.  Model of
the documented behaviour of the standard-library function (fractional
magnitudes and signs, which no claim exercises, are not modelled). -/
def goParseDurationAux (fuel : Nat) (d : Nat) (cs : List Char) : Option Nat :=
  if cs = [] then some d
  else
    match fuel with
    | 0 => none
    | fuel + 1 =>
      let ds := cs.takeWhile Char.isDigit
      let rest := cs.dropWhile Char.isDigit
      if ds = [] then none
      else
        match leadingIntVal 0 ds with
        | none => none
        | some v =>
          let us := rest.takeWhile (fun c => !c.isDigit)
          let rest2 := rest.dropWhile (fun c => !c.isDigit)
          match unitNanos ⟨us⟩ with
          | none => none
          | some mult =>
            if v > 2 ^ 63 / mult then none
            else
              let d2 := (d + v * mult) % 2 ^ 64
              if d2 > 2 ^ 63 then none
              else goParseDurationAux fuel d2 rest2

/-- Model of Go `time.ParseDuration` (integer magnitudes), returning total
nanoseconds on success; includes the final `d > 1<<63-1` overflow check of
the non-negative case. -/
def goParseDuration (s : String) : Option Int :=
  if s.data = [] then none
  else if s.data = ['0'] then some 0
  else
    match goParseDurationAux (s.data.length + 1) 0 s.data with
    | none => none
    | some d => if d > 2 ^ 63 - 1 then none else some (d : Int)

/-- Model of matching the regular expression of `parseDuration`:
one or more digits followed by one of the units d, w, m; returns the
captured digit run and the unit character. -/
def customMatch (s : String) : Option (List Char × Char) :=
  match s.data.getLast? with
  | none => none
  | some u =>
    let ds := s.data.dropLast
    if (u == 'd' || u == 'w' || u == 'm') && !ds.isEmpty && ds.all Char.isDigit then
      some (ds, u)
    else none

/-- Embeds `parseDuration` from cmd/shared.go: standard Go duration
parsing first, the custom day/week/month units only when that fails; the
digit capture goes through `strconv.Atoi` with the error discarded
(`atoi64`), and each `time.Duration` multiplication wraps in int64
(`wrap64`). -/
def parseDuration (s : String) : Option Int :=
  match goParseDuration s with
  | some d => some d
  | none =>
    match customMatch s with
    | none => none
    | some (ds, u) =>
      match u with
      | 'd' => some (wrap64 (wrap64 ((atoi64 ds : Int) * 24) * 3600000000000))
      | 'w' => some (wrap64 (wrap64 (wrap64 ((atoi64 ds : Int) * 7) * 24) * 3600000000000))
      | 'm' => some (wrap64 (wrap64 (wrap64 ((atoi64 ds : Int) * 30) * 24) * 3600000000000))
      | _ => none

lemma takeWhile_append_all {p : Char → Bool} {ds : List Char} (rest : List Char)
    (h : ∀ c ∈ ds, p c = true) :
    (ds ++ rest).takeWhile p = ds ++ rest.takeWhile p := by
  induction ds with
  | nil => simp
  | cons c t ih =>
      have hc := h c (by simp)
      simp only [List.cons_append, List.takeWhile_cons, hc, if_true]
      rw [ih (fun x hx => h x (by simp [hx]))]

lemma dropWhile_append_all {p : Char → Bool} {ds : List Char} (rest : List Char)
    (h : ∀ c ∈ ds, p c = true) :
    (ds ++ rest).dropWhile p = rest.dropWhile p := by
  induction ds with
  | nil => simp
  | cons c t ih =>
      have hc := h c (by simp)
      simp only [List.cons_append, List.dropWhile_cons, hc, if_true]
      exact ih (fun x hx => h x (by simp [hx]))

end GitScan
namespace GitScan

lemma digits_foldl_ge (ds : List Char) : ∀ x : Nat,
    x ≤ ds.foldl (fun a c => a * 10 + (c.toNat - 48)) x := by
  induction ds with
  | nil => intro x; exact Nat.le_refl x
  | cons c t ih =>
      intro x
      simp only [List.foldl_cons]
      have h1 : x ≤ x * 10 + (c.toNat - 48) := by omega
      exact h1.trans (ih (x * 10 + (c.toNat - 48)))

/-- `leadingInt` succeeds and returns the digit value whenever that value
stays within the overflow checks. -/
lemma leadingIntVal_ok : ∀ (ds : List Char) (x : Nat),
    ds.foldl (fun a c => a * 10 + (c.toNat - 48)) x ≤ 2 ^ 63 →
    leadingIntVal x ds = some (ds.foldl (fun a c => a * 10 + (c.toNat - 48)) x)
  | [], _ => fun _ => rfl
  | c :: t, x => fun h => by
      simp only [List.foldl_cons] at h ⊢
      have hge := digits_foldl_ge t (x * 10 + (c.toNat - 48))
      have hx : ¬ (x > 2 ^ 63 / 10) := by omega
      have hx2 : ¬ (x * 10 + (c.toNat - 48) > 2 ^ 63) := by omega
      simp only [leadingIntVal, hx, hx2, if_false]
      exact leadingIntVal_ok t (x * 10 + (c.toNat - 48)) h

lemma aux_nil (fuel d : Nat) : goParseDurationAux fuel d [] = some d := by
  rw [goParseDurationAux.eq_def]
  simp

lemma aux_digit_unit (fuel : Nat) (ds : List Char) (x : Char)
    (hne : ds ≠ []) (hdig : ∀ c ∈ ds, c.isDigit = true) (hx : x.isDigit = false)
    (hvb : digitsVal ds ≤ 2 ^ 63) :
    goParseDurationAux (fuel + 1) 0 (ds ++ [x]) =
      match unitNanos ⟨[x]⟩ with
      | none => none
      | some mult =>
        if digitsVal ds > 2 ^ 63 / mult then none
        else if (digitsVal ds * mult) % 2 ^ 64 > 2 ^ 63 then none
        else some ((digitsVal ds * mult) % 2 ^ 64) := by
  rw [goParseDurationAux.eq_def]
  have hnil : ¬ (ds ++ [x] = []) := by simp
  simp only [hnil, if_false]
  have htake : (ds ++ [x]).takeWhile Char.isDigit = ds := by
    rw [takeWhile_append_all [x] hdig]
    simp [List.takeWhile_cons, hx]
  have hdrop : (ds ++ [x]).dropWhile Char.isDigit = [x] := by
    rw [dropWhile_append_all [x] hdig]
    simp [List.dropWhile_cons, hx]
  have hlv : leadingIntVal 0 ds = some (digitsVal ds) := leadingIntVal_ok ds 0 hvb
  simp only [htake, hdrop, hne, if_false, hlv, List.takeWhile_cons, List.dropWhile_cons, hx,
    Bool.not_false, if_true, List.takeWhile_nil, List.dropWhile_nil, aux_nil, Nat.zero_add]

/-- When the digit value times the unit stays within int64,
`time.ParseDuration` succeeds and returns it. -/
lemma goParseDuration_success (ds : List Char) (x : Char)
    (hne : ds ≠ []) (hdig : ∀ c ∈ ds, c.isDigit = true) (hx : x.isDigit = false)
    {mult : Nat} (hu : unitNanos ⟨[x]⟩ = some mult) (hmpos : 0 < mult)
    (hb : digitsVal ds * mult ≤ 2 ^ 63 - 1) :
    goParseDuration ⟨ds ++ [x]⟩ = some ((digitsVal ds * mult : Nat) : Int) := by
  unfold goParseDuration
  have h1 : ¬ ((⟨ds ++ [x]⟩ : String).data = []) := by simp
  have h2 : ¬ ((⟨ds ++ [x]⟩ : String).data = ['0']) := by
    show ¬ (ds ++ [x] = ['0'])
    intro h
    cases ds with
    | nil =>
        simp only [List.nil_append, List.cons.injEq] at h
        have h3 := hx
        rw [h.1] at h3
        simp at h3
    | cons a t =>
        have h4 := congrArg List.length h
        simp at h4
  simp only [h1, if_false, h2]
  have hlen : (⟨ds ++ [x]⟩ : String).data.length + 1 = (ds.length + 1) + 1 := by simp
  have hvmb : digitsVal ds ≤ digitsVal ds * mult :=
    Nat.le_mul_of_pos_right (digitsVal ds) hmpos
  rw [hlen, aux_digit_unit (ds.length + 1) ds x hne hdig hx (by omega), hu]
  have hdiv : ¬ (digitsVal ds > 2 ^ 63 / mult) := by
    have h5 : digitsVal ds ≤ 2 ^ 63 / mult :=
      (Nat.le_div_iff_mul_le hmpos).mpr (by omega)
    exact Nat.not_lt.mpr h5
  have hmod : (digitsVal ds * mult) % 2 ^ 64 = digitsVal ds * mult :=
    Nat.mod_eq_of_lt (by omega)
  simp only [hdiv, if_false, hmod]
  have h6 : ¬ (digitsVal ds * mult > 2 ^ 63) := by omega
  have h7 : ¬ (digitsVal ds * mult > 2 ^ 63 - 1) := by omega
  simp only [h6, if_false, h7]

/-- On a unit `time.ParseDuration` does not know (d, w), it errors. -/
lemma goParseDuration_badunit (ds : List Char) (x : Char)
    (hne : ds ≠ []) (hdig : ∀ c ∈ ds, c.isDigit = true) (hx : x.isDigit = false)
    (hu : unitNanos ⟨[x]⟩ = none) (hvb : digitsVal ds ≤ 2 ^ 63) :
    goParseDuration ⟨ds ++ [x]⟩ = none := by
  unfold goParseDuration
  have h1 : ¬ ((⟨ds ++ [x]⟩ : String).data = []) := by simp
  have h2 : ¬ ((⟨ds ++ [x]⟩ : String).data = ['0']) := by
    show ¬ (ds ++ [x] = ['0'])
    intro h
    cases ds with
    | nil =>
        simp only [List.nil_append, List.cons.injEq] at h
        have h3 := hx
        rw [h.1] at h3
        simp at h3
    | cons a t =>
        have h4 := congrArg List.length h
        simp at h4
  simp only [h1, if_false, h2]
  have hlen : (⟨ds ++ [x]⟩ : String).data.length + 1 = (ds.length + 1) + 1 := by simp
  rw [hlen, aux_digit_unit (ds.length + 1) ds x hne hdig hx hvb, hu]

lemma customMatch_concat (ds : List Char) (u : Char) (hne : ds ≠ [])
    (hdig : ∀ c ∈ ds, c.isDigit = true)
    (hu : (u == 'd' || u == 'w' || u == 'm') = true) :
    customMatch ⟨ds ++ [u]⟩ = some (ds, u) := by
  unfold customMatch
  rw [show (⟨ds ++ [u]⟩ : String).data = ds ++ [u] from rfl, List.getLast?_concat,
    List.dropLast_concat]
  have he : ds.isEmpty = false := by simp [List.isEmpty_iff, hne]
  simp [he, hu, List.all_eq_true.mpr hdig]

lemma wrap64_eq_self {x : Int} (h1 : -(2 ^ 63) ≤ x) (h2 : x < 2 ^ 63) :
    wrap64 x = x := by
  unfold wrap64
  have h3 : (x + 2 ^ 63) % 2 ^ 64 = x + 2 ^ 63 :=
    Int.emod_eq_of_lt (by omega) (by omega)
  omega

lemma atoi64_eq {ds : List Char} (h : digitsVal ds ≤ 2 ^ 63 - 1) :
    atoi64 ds = digitsVal ds := by
  unfold atoi64
  exact min_eq_left h

/-- Claim C9 (amended): `parseDuration` tries standard Go duration parsing
first, so as long as the denoted duration fits in int64, `<n>m` means n
minutes while the custom units make `<n>d` mean n days and `<n>w` mean n
weeks (in nanoseconds).  Beyond int64 range `time.ParseDuration` errors on
overflow and `<n>m` falls through to the custom 30-day month arm, which
wraps (see the counterexample for the original claim). -/
theorem parseDuration_units (ds : List Char) (hne : ds ≠ [])
    (hdig : ∀ c ∈ ds, c.isDigit = true)
    (hm : digitsVal ds * 60000000000 ≤ 2 ^ 63 - 1)
    (hd : digitsVal ds * 86400000000000 ≤ 2 ^ 63 - 1)
    (hw : digitsVal ds * 604800000000000 ≤ 2 ^ 63 - 1) :
    parseDuration ⟨ds ++ ['m']⟩ = some ((digitsVal ds : Int) * 60000000000) ∧
    parseDuration ⟨ds ++ ['d']⟩ = some ((digitsVal ds : Int) * 24 * 3600000000000) ∧
    parseDuration ⟨ds ++ ['w']⟩ = some ((digitsVal ds : Int) * 7 * 24 * 3600000000000) := by
  have hV0 : (0 : Int) ≤ (digitsVal ds : Int) := Int.natCast_nonneg _
  have hdI : (digitsVal ds : Int) * 86400000000000 ≤ 2 ^ 63 - 1 := by
    have h0 := hd
    omega
  have hwI : (digitsVal ds : Int) * 604800000000000 ≤ 2 ^ 63 - 1 := by
    have h0 := hw
    omega
  refine ⟨?_, ?_, ?_⟩
  · have hgo := goParseDuration_success ds 'm' hne hdig (by decide)
      (show unitNanos ⟨['m']⟩ = some 60000000000 from rfl) (by norm_num) hm
    unfold parseDuration
    simp only [hgo]
    norm_cast
  · have hgo := goParseDuration_badunit ds 'd' hne hdig (by decide) rfl (by omega)
    have hcm := customMatch_concat ds 'd' hne hdig (by decide)
    unfold parseDuration
    simp only [hgo, hcm]
    rw [show atoi64 ds = digitsVal ds from atoi64_eq (by omega)]
    have hw1 : wrap64 ((digitsVal ds : Int) * 24) = (digitsVal ds : Int) * 24 := by
      refine wrap64_eq_self (by omega) ?_
      omega
    rw [hw1]
    have hw2 : wrap64 ((digitsVal ds : Int) * 24 * 3600000000000)
        = (digitsVal ds : Int) * 24 * 3600000000000 := by
      have hr : (digitsVal ds : Int) * 24 * 3600000000000
          = (digitsVal ds : Int) * 86400000000000 := by ring
      rw [hr]
      refine wrap64_eq_self (by omega) (by omega)
    rw [hw2]
  · have hgo := goParseDuration_badunit ds 'w' hne hdig (by decide) rfl (by omega)
    have hcm := customMatch_concat ds 'w' hne hdig (by decide)
    unfold parseDuration
    simp only [hgo, hcm]
    rw [show atoi64 ds = digitsVal ds from atoi64_eq (by omega)]
    have hw1 : wrap64 ((digitsVal ds : Int) * 7) = (digitsVal ds : Int) * 7 := by
      refine wrap64_eq_self (by omega) (by omega)
    rw [hw1]
    have hw2 : wrap64 ((digitsVal ds : Int) * 7 * 24) = (digitsVal ds : Int) * 7 * 24 := by
      have hr : (digitsVal ds : Int) * 7 * 24 = (digitsVal ds : Int) * 168 := by ring
      rw [hr]
      refine wrap64_eq_self (by omega) (by omega)
    rw [hw2]
    have hw3 : wrap64 ((digitsVal ds : Int) * 7 * 24 * 3600000000000)
        = (digitsVal ds : Int) * 7 * 24 * 3600000000000 := by
      have hr : (digitsVal ds : Int) * 7 * 24 * 3600000000000
          = (digitsVal ds : Int) * 604800000000000 := by ring
      rw [hr]
      refine wrap64_eq_self (by omega) (by omega)
    rw [hw3]

/-- Counterexample to claim C9 as stated: "160000000m" is all digits
followed by m, but 1.6e8 minutes is 9.6e18 ns, beyond int64, so
`time.ParseDuration` errors on its overflow check and the custom month arm
runs instead: the result is 160000000 months of 30 days wrapped in int64
(299734861860569088 ns), not n minutes. -/
theorem parseDuration_month_overflow_cex :
    (∀ c ∈ ("160000000" : String).data, c.isDigit = true) ∧
    goParseDuration "160000000m" = none ∧
    parseDuration "160000000m" = some 299734861860569088 ∧
    parseDuration "160000000m" ≠ some ((160000000 : Int) * 60000000000) := by decide

/-- Closed instance of `parseDuration_units` at 45: "45m" is 45 minutes,
"45d" is 45 days, "45w" is 45 weeks, all within int64. -/
theorem parseDuration_units_witness :
    ((['4', '5'] : List Char) ≠ [] ∧
      (∀ c ∈ (['4', '5'] : List Char), c.isDigit = true) ∧
      digitsVal ['4', '5'] * 60000000000 ≤ 2 ^ 63 - 1 ∧
      digitsVal ['4', '5'] * 86400000000000 ≤ 2 ^ 63 - 1 ∧
      digitsVal ['4', '5'] * 604800000000000 ≤ 2 ^ 63 - 1) ∧
    parseDuration "45m" = some 2700000000000 ∧
    parseDuration "45d" = some 3888000000000000 ∧
    parseDuration "45w" = some 27216000000000000 := by
  have h := parseDuration_units ['4', '5'] (by decide) (by decide) (by decide)
    (by decide) (by decide)
  refine ⟨⟨by decide, by decide, by decide, by decide, by decide⟩, ?_, ?_, ?_⟩
  · have h1 := h.1
    rw [show (⟨['4', '5'] ++ ['m']⟩ : String) = "45m" from rfl] at h1
    rw [h1]
    decide
  · have h1 := h.2.1
    rw [show (⟨['4', '5'] ++ ['d']⟩ : String) = "45d" from rfl] at h1
    rw [h1]
    decide
  · have h1 := h.2.2
    rw [show (⟨['4', '5'] ++ ['w']⟩ : String) = "45w" from rfl] at h1
    rw [h1]
    decide

end GitScan
namespace GitScan

/-! ### Git status backends (scanner/git.go and scanner/git_cli.go) -/

/-- The data `go-git` exposes about the resolved HEAD reference:
whether its name is a branch name, the short branch name, and the commit
hash it points to (hashes are abstracted as naturals). -/
structure HeadInfo where
  isBranch : Bool
  short : String
  hash : Nat
deriving DecidableEq, Repr

/-- Abstract state of a repository as read through the go-git API:
resolved HEAD (`none` = `repo.Head()` error), reference resolution,
commit-object lookup success, and the ancestry check
(`none` = `IsAncestor` error). -/
structure GoGitRepo where
  head : Option HeadInfo
  reference : String → Option Nat
  commitObject : Nat → Bool
  isAncestor : Nat → Nat → Option Bool

/-- Embeds `plumbing.NewRemoteReferenceName`. -/
def newRemoteReferenceName (remote branch : String) : String :=
  "refs/remotes/" ++ remote ++ "/" ++ branch

/-- Embeds `GoGitBackend.hasUnpushedCommits` from scanner/git.go with the
same check order and early returns. -/
def goGitHasUnpushedCommits (repo : GoGitRepo) : Bool :=
  match repo.head with
  | none => true
  | some head =>
    if !head.isBranch then false
    else
      match repo.reference (newRemoteReferenceName "origin" head.short) with
      | none => true
      | some remoteHash =>
        if !repo.commitObject head.hash then false
        else if !repo.commitObject remoteHash then true
        else if head.hash == remoteHash then false
        else
          match repo.isAncestor head.hash remoteHash with
          | none => true
          | some b => b

/-- Embeds the line processing of `CLIGitBackend.GetStatus` from
scanner/git_cli.go, after the output has been split on newlines: the first
line is the branch header, the remaining lines signal uncommitted changes,
and `[ahead` / missing `...` in the header signal unpushed commits. -/
def cliStatusLines (lines : List String) (checkUnpushed : Bool) : Bool × Bool :=
  match lines with
  | [] => (false, false)
  | branchLine :: rest =>
    let hasUncommitted := rest.any (fun l => !(strTrim l == ""))
    let hasUnpushed :=
      if checkUnpushed then
        if strContainsSub branchLine "[ahead" then true
        else if !strContainsSub branchLine "..." then true
        else false
      else false
    (hasUncommitted, hasUnpushed)

/-- Embeds `CLIGitBackend.GetStatus`: `none` models a failing
`git status --porcelain -b` invocation. -/
def cliGetStatus (output : Option String) (checkUnpushed : Bool) : Bool × Bool :=
  match output with
  | none => (false, false)
  | some out => cliStatusLines (strSplitLines out) checkUnpushed

/-- Abstract repository state as observed through the git CLI. -/
structure CliRepoState where
  detached : Bool
  branch : String
  hasUpstream : Bool
  aheadCount : Nat
  behindCount : Nat
  dirtyLines : List String

/-- Modelled from the spec and the code comments of scanner/git_cli.go: the
branch header line of `git status --porcelain -b` — `## HEAD (no branch)`
when detached, `## <branch>` with no upstream, and
`## <branch>...origin/<branch>` plus an optional `[ahead N]`/`[behind N]`
annotation when an upstream is configured. -/
def branchHeader (st : CliRepoState) : String :=
  if st.detached then "## HEAD (no branch)"
  else if !st.hasUpstream then "## " ++ st.branch
  else
    "## " ++ st.branch ++ "...origin/" ++ st.branch ++
      (if st.aheadCount == 0 && st.behindCount == 0 then ""
       else if st.behindCount == 0 then " [ahead " ++ toString st.aheadCount ++ "]"
       else if st.aheadCount == 0 then " [behind " ++ toString st.behindCount ++ "]"
       else " [ahead " ++ toString st.aheadCount ++ ", behind " ++ toString st.behindCount ++ "]")

/-- The lines of the status output for a repository state. -/
def statusLines (st : CliRepoState) : List String := branchHeader st :: st.dirtyLines

/-- Joins output lines with newlines (inverse of splitting). -/
def joinLines : List (List Char) → List Char
  | [] => []
  | [l] => l
  | l :: ls => l ++ '\n' :: joinLines ls

/-- The raw status output text for a repository state. -/
def renderStatus (st : CliRepoState) : String :=
  ⟨joinLines ((statusLines st).map String.data)⟩

end GitScan
namespace GitScan

def detachedExample : CliRepoState :=
  { detached := true, branch := "main", hasUpstream := false,
    aheadCount := 0, behindCount := 0, dirtyLines := [] }

example : (cliGetStatus (some (renderStatus detachedExample)) true).2 = true := by decide
example : (cliGetStatus (some "## main") true).2 = true := by decide
example : (cliGetStatus (some "## main...origin/main") true).2 = false := by decide
example : (cliGetStatus (some "## main...origin/main [ahead 2]") true).2 = true := by decide
example : goGitHasUnpushedCommits
    { head := some ⟨false, "", 5⟩, reference := fun _ => none,
      commitObject := fun _ => true, isAncestor := fun _ _ => some true } = false := by decide

-- split/join roundtrip lemmas
lemma splitOnChar_no_sep {c : Char} {l : List Char} (h : c ∉ l) :
    splitOnChar c l = [l] := by
  induction l with
  | nil => rfl
  | cons x xs ih =>
      have hx : (x == c) = false := by
        apply beq_eq_false_iff_ne.mpr
        intro he
        exact h (by simp [he])
      rw [splitOnChar]
      simp only [hx, Bool.false_eq_true, if_false]
      rw [ih (fun hm => h (by simp [hm]))]

lemma splitOnChar_append_sep {c : Char} {l rest : List Char} (h : c ∉ l) :
    splitOnChar c (l ++ c :: rest) = l :: splitOnChar c rest := by
  induction l with
  | nil => simp [splitOnChar]
  | cons x xs ih =>
      have hx : (x == c) = false := by
        apply beq_eq_false_iff_ne.mpr
        intro he
        exact h (by simp [he])
      rw [List.cons_append, splitOnChar]
      simp only [hx, Bool.false_eq_true, if_false]
      rw [ih (fun hm => h (by simp [hm]))]

lemma splitOnChar_joinLines : ∀ ls : List (List Char), ls ≠ [] → (∀ l ∈ ls, '\n' ∉ l) →
    splitOnChar '\n' (joinLines ls) = ls
  | [], hne, _ => absurd rfl hne
  | [l], _, h => by
      rw [joinLines]
      exact splitOnChar_no_sep (h l (by simp))
  | l :: l2 :: ls2, _, h => by
      rw [show joinLines (l :: l2 :: ls2) = l ++ '\n' :: joinLines (l2 :: ls2) from rfl,
        splitOnChar_append_sep (h l (by simp))]
      rw [splitOnChar_joinLines (l2 :: ls2) (List.cons_ne_nil l2 ls2)
        (fun x hx => h x (by simp [hx]))]

lemma strSplitLines_renderStatus (st : CliRepoState)
    (hb : '\n' ∉ (branchHeader st).data)
    (hd : ∀ l ∈ st.dirtyLines, '\n' ∉ l.data) :
    strSplitLines (renderStatus st) = statusLines st := by
  unfold strSplitLines renderStatus
  have hmem : ∀ l ∈ (statusLines st).map String.data, '\n' ∉ l := by
    intro l hl
    simp only [statusLines, List.map_cons, List.mem_cons] at hl
    rcases hl with h1 | h1
    · rw [h1]; exact hb
    · simp only [List.mem_map] at h1
      obtain ⟨x, hx1, hx2⟩ := h1
      rw [← hx2]
      exact hd x hx1
  rw [splitOnChar_joinLines _ (by simp [statusLines]) hmem, List.map_map]
  rw [show ((fun cs => (⟨cs⟩ : String)) ∘ String.data) = id from funext (fun x => rfl)]
  exact List.map_id _

end GitScan
namespace GitScan

lemma strContainsSub_iff {s sub : String} :
    strContainsSub s sub = true ↔ sub.data <:+: s.data := by
  unfold strContainsSub
  rw [List.any_eq_true]
  constructor
  · rintro ⟨t, ht, hp⟩
    rw [List.mem_tails t s.data] at ht
    exact List.infix_iff_prefix_suffix.mpr ⟨t, List.isPrefixOf_iff_prefix.mp hp, ht⟩
  · intro h
    obtain ⟨t, hp, hs⟩ := List.infix_iff_prefix_suffix.mp h
    exact ⟨t, (List.mem_tails t s.data).mpr hs, List.isPrefixOf_iff_prefix.mpr hp⟩

lemma prefix_append_cases {sub l₁ l₂ : List Char} (h : sub <+: l₁ ++ l₂) :
    sub <+: l₁ ∨ ∃ s₂, sub = l₁ ++ s₂ ∧ s₂ <+: l₂ := by
  induction l₁ generalizing sub with
  | nil => exact Or.inr ⟨sub, rfl, by simpa using h⟩
  | cons x xs ih =>
      cases sub with
      | nil => exact Or.inl List.nil_prefix
      | cons a as =>
          rw [List.cons_append, List.cons_prefix_cons] at h
          obtain ⟨rfl, h2⟩ := h
          rcases ih h2 with h3 | ⟨s₂, rfl, h4⟩
          · exact Or.inl (List.cons_prefix_cons.mpr ⟨rfl, h3⟩)
          · exact Or.inr ⟨s₂, by simp, h4⟩

lemma infix_append_cases {sub l₁ l₂ : List Char} (h : sub <:+: l₁ ++ l₂) :
    sub <:+: l₁ ∨ sub <:+: l₂ ∨
      ∃ s₁ s₂, s₁ ≠ [] ∧ s₂ ≠ [] ∧ sub = s₁ ++ s₂ ∧ s₁ <:+ l₁ ∧ s₂ <+: l₂ := by
  induction l₁ generalizing sub with
  | nil => exact Or.inr (Or.inl (by simpa using h))
  | cons x xs ih =>
      rw [List.cons_append, List.infix_cons_iff] at h
      rcases h with h | h
      · -- sub is a prefix of x :: (xs ++ l₂)
        rcases prefix_append_cases (show sub <+: (x :: xs) ++ l₂ by simpa using h) with
          h1 | ⟨s₂, rfl, h2⟩
        · exact Or.inl h1.isInfix
        · cases h3 : s₂ with
          | nil =>
              subst h3
              exact Or.inl (by simp [List.infix_rfl])
          | cons b bs =>
              subst h3
              exact Or.inr (Or.inr ⟨x :: xs, b :: bs, by simp, by simp, rfl,
                List.suffix_rfl, h2⟩)
      · rcases ih h with h1 | h1 | ⟨s₁, s₂, hn1, hn2, rfl, hs, hp⟩
        · exact Or.inl (h1.trans (List.suffix_cons x xs).isInfix)
        · exact Or.inr (Or.inl h1)
        · exact Or.inr (Or.inr ⟨s₁, s₂, hn1, hn2, rfl, hs.trans (List.suffix_cons x xs), hp⟩)

end GitScan
namespace GitScan

lemma prefix_of_append_short {s l₁ l₂ : List Char} (h : s <+: l₁ ++ l₂)
    (hlen : s.length ≤ l₁.length) : s <+: l₁ := by
  rcases prefix_append_cases h with h1 | ⟨s₂, rfl, h2⟩
  · exact h1
  · have : s₂ = [] := by
      have := hlen
      simp only [List.length_append] at this
      have h0 : s₂.length = 0 := by omega
      exact List.length_eq_zero.mp h0
    subst this
    simp

lemma suffix_of_append_short {s l₁ l₂ : List Char} (h : s <:+ l₁ ++ l₂)
    (hlen : s.length ≤ l₂.length) : s <:+ l₂ := by
  rw [← List.reverse_prefix] at h ⊢
  rw [List.reverse_append] at h
  exact prefix_of_append_short (by simpa using h) (by simpa using hlen)

lemma not_infix_append_headL {sub l₁ l₂ : List Char}
    (h1 : ¬ sub <:+: l₁) (h2 : ¬ sub <:+: l₂)
    (hhead : ∀ c, sub.head? = some c → c ∉ l₁) :
    ¬ sub <:+: l₁ ++ l₂ := by
  intro h
  rcases infix_append_cases h with h3 | h3 | ⟨s₁, s₂, hn1, _, heq, hs, _⟩
  · exact h1 h3
  · exact h2 h3
  · cases s₁ with
    | nil => exact hn1 rfl
    | cons c t =>
        refine hhead c ?_ (hs.subset (by simp))
        rw [heq]; rfl

lemma not_infix_append_headT {sub X T l₂ : List Char}
    (h1 : ¬ sub <:+: X ++ T) (h2 : ¬ sub <:+: l₂)
    (hlen : sub.length ≤ T.length)
    (hhead : ∀ c, sub.head? = some c → c ∉ T) :
    ¬ sub <:+: (X ++ T) ++ l₂ := by
  intro h
  rcases infix_append_cases h with h3 | h3 | ⟨s₁, s₂, hn1, _, heq, hs, _⟩
  · exact h1 h3
  · exact h2 h3
  · have hs₁len : s₁.length ≤ T.length := by
      have : s₁.length ≤ sub.length := by
        rw [heq, List.length_append]; omega
      omega
    have hsT : s₁ <:+ T := suffix_of_append_short hs hs₁len
    cases s₁ with
    | nil => exact hn1 rfl
    | cons c t =>
        refine hhead c ?_ (hsT.subset (by simp))
        rw [heq]; rfl

lemma not_infix_append_headR {sub l₁ l₂ : List Char}
    (h1 : ¬ sub <:+: l₁) (h2 : ¬ sub <:+: l₂)
    (hhead : ∀ c, l₂.head? = some c → c ∉ sub) :
    ¬ sub <:+: l₁ ++ l₂ := by
  intro h
  rcases infix_append_cases h with h3 | h3 | ⟨s₁, s₂, _, hn2, heq, _, hp⟩
  · exact h1 h3
  · exact h2 h3
  · cases s₂ with
    | nil => exact hn2 rfl
    | cons c t =>
        cases l₂ with
        | nil => simp [List.prefix_nil] at hp
        | cons d u =>
            rw [List.cons_prefix_cons] at hp
            refine hhead d rfl ?_
            rw [heq, ← hp.1]
            simp

end GitScan
namespace GitScan

example : ¬ ("[ahead".data <:+: "## ".data) := by decide
example : ("[ahead".data.length ≤ "...origin/".data.length) := by decide

lemma strContainsSub_eq_false_iff {s sub : String} :
    strContainsSub s sub = false ↔ ¬ sub.data <:+: s.data := by
  rw [← strContainsSub_iff]
  cases strContainsSub s sub <;> simp

lemma string_append_empty (s : String) : s ++ "" = s := by
  apply string_ext
  rw [String.data_append]
  simp [show ("" : String).data = [] from rfl]

lemma cli_noupstream_header (b : String)
    (ha : strContainsSub b "[ahead" = false) (hdots : strContainsSub b "..." = false) :
    strContainsSub ("## " ++ b) "[ahead" = false ∧
    strContainsSub ("## " ++ b) "..." = false := by
  constructor
  · rw [strContainsSub_eq_false_iff, String.data_append]
    exact not_infix_append_headL (by decide) (strContainsSub_eq_false_iff.mp ha)
      (fun c hc => by
        rw [show ("[ahead".data.head? = some '[') from rfl] at hc
        cases hc
        decide)
  · rw [strContainsSub_eq_false_iff, String.data_append]
    exact not_infix_append_headL (by decide) (strContainsSub_eq_false_iff.mp hdots)
      (fun c hc => by
        rw [show ("...".data.head? = some '.') from rfl] at hc
        cases hc
        decide)

lemma cli_upstream_header (b : String) (ha : strContainsSub b "[ahead" = false) :
    strContainsSub ("## " ++ b ++ "...origin/" ++ b) "[ahead" = false ∧
    strContainsSub ("## " ++ b ++ "...origin/" ++ b) "..." = true := by
  have hdata : ("## " ++ b ++ "...origin/" ++ b).data
      = (("## ".data ++ b.data) ++ "...origin/".data) ++ b.data := by
    simp [String.data_append]
  constructor
  · rw [strContainsSub_eq_false_iff, hdata]
    have hX : ¬ ("[ahead".data <:+: "## ".data ++ b.data) :=
      not_infix_append_headL (by decide) (strContainsSub_eq_false_iff.mp ha)
        (fun c hc => by
          rw [show ("[ahead".data.head? = some '[') from rfl] at hc
          cases hc
          decide)
    have hXT : ¬ ("[ahead".data <:+: ("## ".data ++ b.data) ++ "...origin/".data) :=
      not_infix_append_headR hX (by decide)
        (fun c hc => by
          rw [show ("...origin/".data.head? = some '.') from rfl] at hc
          cases hc
          decide)
    exact not_infix_append_headT hXT (strContainsSub_eq_false_iff.mp ha)
      (by decide)
      (fun c hc => by
        rw [show ("[ahead".data.head? = some '[') from rfl] at hc
        cases hc
        decide)
  · rw [strContainsSub_iff, hdata]
    refine ⟨"## ".data ++ b.data, "origin/".data ++ b.data, ?_⟩
    rw [show "...origin/".data = "...".data ++ "origin/".data from rfl]
    simp [List.append_assoc]

end GitScan
namespace GitScan

/-- Well-formedness of a CLI repository state: the branch name cannot
contain the marker substrings or newlines (git forbids `..` and control
characters in ref names), and status lines are newline-free. -/
def CliWellFormed (st : CliRepoState) : Prop :=
  strContainsSub st.branch "[ahead" = false ∧
  strContainsSub st.branch "..." = false ∧
  '\n' ∉ st.branch.data ∧
  ∀ l ∈ st.dirtyLines, '\n' ∉ l.data

instance (st : CliRepoState) : Decidable (CliWellFormed st) := by
  unfold CliWellFormed; infer_instance

/-- Claim C2 (amended): the go-git backend implements all three edge cases
of the policy (detached HEAD reports false, missing upstream reports true,
identical HEAD and upstream commits report false), and the git-CLI backend
implements the last two; but in detached-HEAD state the CLI backend
reports hasUnpushed = TRUE, because the header `## HEAD (no branch)`
contains no `...` and is therefore treated as a branch with no upstream. -/
theorem unpushed_edge_cases :
    (∀ repo : GoGitRepo, ∀ hd : HeadInfo, repo.head = some hd → hd.isBranch = false →
        goGitHasUnpushedCommits repo = false) ∧
    (∀ repo : GoGitRepo, ∀ hd : HeadInfo, repo.head = some hd → hd.isBranch = true →
        repo.reference (newRemoteReferenceName "origin" hd.short) = none →
        goGitHasUnpushedCommits repo = true) ∧
    (∀ repo : GoGitRepo, ∀ hd : HeadInfo, repo.head = some hd → hd.isBranch = true →
        repo.reference (newRemoteReferenceName "origin" hd.short) = some hd.hash →
        goGitHasUnpushedCommits repo = false) ∧
    (∀ st : CliRepoState, st.detached = true → (∀ l ∈ st.dirtyLines, '\n' ∉ l.data) →
        (cliGetStatus (some (renderStatus st)) true).2 = true) ∧
    (∀ st : CliRepoState, CliWellFormed st → st.detached = false → st.hasUpstream = false →
        (cliGetStatus (some (renderStatus st)) true).2 = true) ∧
    (∀ st : CliRepoState, CliWellFormed st → st.detached = false → st.hasUpstream = true →
        st.aheadCount = 0 → st.behindCount = 0 →
        (cliGetStatus (some (renderStatus st)) true).2 = false) := by
  refine ⟨?_, ?_, ?_, ?_, ?_, ?_⟩
  · intro repo hd hh hb
    unfold goGitHasUnpushedCommits
    rw [hh]
    simp [hb]
  · intro repo hd hh hb href
    unfold goGitHasUnpushedCommits
    rw [hh]
    simp [hb, href]
  · intro repo hd hh hb href
    unfold goGitHasUnpushedCommits
    rw [hh]
    simp only [hb, Bool.not_true, Bool.false_eq_true, if_false, href]
    by_cases hc : repo.commitObject hd.hash
    · simp [hc]
    · simp [hc]
  · intro st hdet hdirty
    have hhdr : branchHeader st = "## HEAD (no branch)" := by
      simp [branchHeader, hdet]
    show (cliStatusLines (strSplitLines (renderStatus st)) true).2 = true
    rw [strSplitLines_renderStatus st (by rw [hhdr]; decide) hdirty]
    rw [show statusLines st = branchHeader st :: st.dirtyLines from rfl, hhdr]
    show (if strContainsSub "## HEAD (no branch)" "[ahead" = true then true
          else if (!strContainsSub "## HEAD (no branch)" "...") = true then true else false)
        = true
    decide
  · intro st wf hdet hup
    have hhdr : branchHeader st = "## " ++ st.branch := by
      simp [branchHeader, hdet, hup]
    obtain ⟨hcA, hcD⟩ := cli_noupstream_header st.branch wf.1 wf.2.1
    show (cliStatusLines (strSplitLines (renderStatus st)) true).2 = true
    rw [strSplitLines_renderStatus st
      (by
        rw [hhdr, String.data_append]
        simp only [List.mem_append, not_or]
        exact ⟨by decide, wf.2.2.1⟩) wf.2.2.2]
    rw [show statusLines st = branchHeader st :: st.dirtyLines from rfl, hhdr]
    show (if strContainsSub ("## " ++ st.branch) "[ahead" = true then true
          else if (!strContainsSub ("## " ++ st.branch) "...") = true then true else false)
        = true
    rw [hcA, hcD]
    simp
  · intro st wf hdet hup hah hbh
    have hhdr : branchHeader st = "## " ++ st.branch ++ "...origin/" ++ st.branch := by
      simp only [branchHeader, hdet, Bool.false_eq_true, if_false, hup, Bool.not_true, hah, hbh]
      simp [string_append_empty]
    obtain ⟨hcA, hcD⟩ := cli_upstream_header st.branch wf.1
    show (cliStatusLines (strSplitLines (renderStatus st)) true).2 = false
    rw [strSplitLines_renderStatus st
      (by
        rw [hhdr]
        simp only [String.data_append, List.mem_append, not_or]
        exact ⟨⟨⟨by decide, wf.2.2.1⟩, by decide⟩, wf.2.2.1⟩) wf.2.2.2]
    rw [show statusLines st = branchHeader st :: st.dirtyLines from rfl, hhdr]
    show (if strContainsSub ("## " ++ st.branch ++ "...origin/" ++ st.branch) "[ahead" = true
            then true
          else if (!strContainsSub ("## " ++ st.branch ++ "...origin/" ++ st.branch) "...") = true
            then true else false)
        = false
    rw [hcA, hcD]
    simp

def detachedExample2 : CliRepoState :=
  { detached := true, branch := "main", hasUpstream := false,
    aheadCount := 0, behindCount := 0, dirtyLines := [] }

def detachedGoGitExample : GoGitRepo :=
  { head := some ⟨false, "", 7⟩, reference := fun _ => none,
    commitObject := fun _ => true, isAncestor := fun _ _ => some true }

/-- Counterexample to claim C2 as stated: on a detached-HEAD repository the
git-CLI backend reports hasUnpushed = true (the go-git backend reports
false), so the two backends do not both report false. -/
theorem cli_detached_unpushed_cex :
    (cliGetStatus (some (renderStatus detachedExample2)) true).2 = true ∧
    goGitHasUnpushedCommits detachedGoGitExample = false := by
  exact ⟨by decide, rfl⟩

end GitScan
namespace GitScan

def noUpstreamGoGitExample : GoGitRepo :=
  { head := some ⟨true, "main", 7⟩, reference := fun _ => none,
    commitObject := fun _ => true, isAncestor := fun _ _ => some true }

def sameCommitGoGitExample : GoGitRepo :=
  { head := some ⟨true, "main", 7⟩, reference := fun _ => some 7,
    commitObject := fun _ => true, isAncestor := fun _ _ => some true }

def noUpstreamCliExample : CliRepoState :=
  { detached := false, branch := "main", hasUpstream := false,
    aheadCount := 0, behindCount := 0, dirtyLines := [" M foo.go"] }

def sameCommitCliExample : CliRepoState :=
  { detached := false, branch := "main", hasUpstream := true,
    aheadCount := 0, behindCount := 0, dirtyLines := [] }

/-- Closed instance of `unpushed_edge_cases` at concrete repository
states. -/
theorem unpushed_edge_cases_witness :
    goGitHasUnpushedCommits detachedGoGitExample = false ∧
    goGitHasUnpushedCommits noUpstreamGoGitExample = true ∧
    goGitHasUnpushedCommits sameCommitGoGitExample = false ∧
    (cliGetStatus (some (renderStatus detachedExample2)) true).2 = true ∧
    (cliGetStatus (some (renderStatus noUpstreamCliExample)) true).2 = true ∧
    (cliGetStatus (some (renderStatus sameCommitCliExample)) true).2 = false := by
  refine ⟨?_, ?_, ?_, ?_, ?_, ?_⟩
  · exact unpushed_edge_cases.1 detachedGoGitExample ⟨false, "", 7⟩ rfl rfl
  · exact unpushed_edge_cases.2.1 noUpstreamGoGitExample ⟨true, "main", 7⟩ rfl rfl rfl
  · exact unpushed_edge_cases.2.2.1 sameCommitGoGitExample ⟨true, "main", 7⟩ rfl rfl rfl
  · exact unpushed_edge_cases.2.2.2.1 detachedExample2 rfl (by simp [detachedExample2])
  · exact unpushed_edge_cases.2.2.2.2.1 noUpstreamCliExample (by decide) rfl rfl
  · exact unpushed_edge_cases.2.2.2.2.2 sameCommitCliExample (by decide) rfl rfl rfl rfl

end GitScan
namespace GitScan

/-! ### Dependency graph engine (scanner/scanner.go) -/

/-- Model of Go's byte-wise string comparison on character data
(UTF-8 byte order coincides with code-point order). -/
def charListLe : List Char → List Char → Bool
  | [], _ => true
  | _ :: _, [] => false
  | a :: as, b :: bs => if a < b then true else if b < a then false else charListLe as bs

lemma charListLe_total : ∀ a b : List Char, charListLe a b = true ∨ charListLe b a = true
  | [], _ => Or.inl rfl
  | _ :: _, [] => Or.inr rfl
  | a :: as, b :: bs => by
      rcases lt_trichotomy a b with h | h | h
      · left; simp [charListLe, h]
      · subst h
        rcases charListLe_total as bs with h2 | h2
        · left; simp [charListLe, lt_irrefl, h2]
        · right; simp [charListLe, lt_irrefl, h2]
      · right; simp [charListLe, h]

lemma charListLe_trans : ∀ {a b c : List Char},
    charListLe a b = true → charListLe b c = true → charListLe a c = true
  | [], _, _, _, _ => rfl
  | x :: xs, [], _, hab, _ => by simp [charListLe] at hab
  | _ :: _, _ :: _, [], _, hbc => by simp [charListLe] at hbc
  | x :: xs, y :: ys, z :: zs, hab, hbc => by
      simp only [charListLe] at hab hbc ⊢
      rcases lt_trichotomy x y with h1 | h1 | h1
      · rcases lt_trichotomy y z with h2 | h2 | h2
        · simp [h1.trans h2]
        · subst h2; simp [h1]
        · rw [if_neg (asymm h2), if_pos h2] at hbc; exact absurd hbc (by simp)
      · subst h1
        rcases lt_trichotomy x z with h2 | h2 | h2
        · simp [h2]
        · subst h2
          rw [if_neg (lt_irrefl x), if_neg (lt_irrefl x)] at hab hbc ⊢
          exact charListLe_trans hab hbc
        · rw [if_neg (asymm h2), if_pos h2] at hbc; exact absurd hbc (by simp)
      · rw [if_neg (asymm h1), if_pos h1] at hab; exact absurd hab (by simp)

lemma charListLe_antisymm : ∀ {a b : List Char},
    charListLe a b = true → charListLe b a = true → a = b
  | [], [], _, _ => rfl
  | [], _ :: _, _, hba => by simp [charListLe] at hba
  | _ :: _, [], hab, _ => by simp [charListLe] at hab
  | x :: xs, y :: ys, hab, hba => by
      simp only [charListLe] at hab hba
      rcases lt_trichotomy x y with h1 | h1 | h1
      · rw [if_neg (asymm h1), if_pos h1] at hba; exact absurd hba (by simp)
      · subst h1
        rw [if_neg (lt_irrefl x), if_neg (lt_irrefl x)] at hab hba
        rw [charListLe_antisymm hab hba]
      · rw [if_neg (asymm h1), if_pos h1] at hab; exact absurd hab (by simp)

/-- Go string `<=` as used by `slices.Sort` on `[]string`. -/
def strLe (a b : String) : Bool := charListLe a.data b.data

instance : IsTotal String (fun a b => strLe a b = true) :=
  ⟨fun a b => charListLe_total a.data b.data⟩

instance : IsTrans String (fun a b => strLe a b = true) :=
  ⟨fun _ _ _ h1 h2 => charListLe_trans h1 h2⟩

instance : IsAntisymm String (fun a b => strLe a b = true) :=
  ⟨fun a b h1 h2 => by
    cases a; cases b
    exact congrArg String.mk (charListLe_antisymm h1 h2)⟩

/-- Model of `slices.Sort` on a string slice. -/
def sortStrings (l : List String) : List String :=
  List.insertionSort (fun a b => strLe a b = true) l

lemma sortStrings_perm (l : List String) : List.Perm (sortStrings l) l :=
  List.perm_insertionSort _ l

lemma sortStrings_sorted (l : List String) :
    List.Sorted (fun a b : String => strLe a b = true) (sortStrings l) :=
  List.sorted_insertionSort _ l

lemma sortStrings_congr {l₁ l₂ : List String} (h : List.Perm l₁ l₂) :
    sortStrings l₁ = sortStrings l₂ :=
  List.eq_of_perm_of_sorted ((sortStrings_perm l₁).trans (h.trans (sortStrings_perm l₂).symm))
    (sortStrings_sorted l₁) (sortStrings_sorted l₂)

/-- The key set of the `inDegree` map of `TopologicalSort`: the distinct
non-empty module names, in first-insertion order. -/
def moduleKeys (results : List RepoResult) : List String :=
  ((results.map (fun r => r.ModuleName)).filter (fun m => !(m == ""))).dedup

/-- Embeds the `moduleToResult` map: a lookup returns the LAST result with
the given non-empty module name (Go map writes overwrite). -/
def moduleToResult (results : List RepoResult) (m : String) : Option RepoResult :=
  if m = "" then none
  else results.reverse.find? (fun r => r.ModuleName == m)

/-- Whether a dependency is "managed", i.e. present in `moduleToResult`. -/
def managedB (results : List RepoResult) (dep : String) : Bool :=
  (moduleToResult results dep).isSome

/-- The `dependents` adjacency map, abstracted over the managed test: for
each result with a non-empty module name, each occurrence of `d` among its
managed dependencies appends the result's module name. -/
def dependentsAux (isM : String → Bool) (rs : List RepoResult) (d : String) : List String :=
  rs.flatMap (fun r =>
    if r.ModuleName = "" then []
    else (r.Dependencies.filter (fun dep => dep == d && isM dep)).map (fun _ => r.ModuleName))

/-- Embeds the `dependents` map of `TopologicalSort` and
`GetTransitiveDependents`. -/
def dependentsOf (results : List RepoResult) (d : String) : List String :=
  dependentsAux (managedB results) results d

/-- The initial in-degree computation, abstracted over the managed test:
each result with module name `m` contributes one per managed dependency
occurrence. -/
def inDegreeAux (isM : String → Bool) (rs : List RepoResult) (m : String) : Nat :=
  if m = "" then 0
  else ((rs.filter (fun r => r.ModuleName == m)).map
    (fun r => (r.Dependencies.filter isM).length)).sum

/-- Embeds the initial `inDegree` map of `TopologicalSort` (Go `int`,
always a count here). -/
def inDegree0 (results : List RepoResult) (m : String) : Int :=
  inDegreeAux (managedB results) results m

/-- Embeds the inner loop over a popped node's dependents: decrement each
dependent's in-degree and enqueue it when the count reaches zero. -/
def stepDeps : (String → Int) → List String → List String → ((String → Int) × List String)
  | deg, queue, [] => (deg, queue)
  | deg, queue, d :: ds =>
      let v := deg d - 1
      stepDeps (fun x => if x = d then v else deg x) (if v = 0 then queue ++ [d] else queue) ds

/-- Embeds the Kahn loop of `TopologicalSort`: pop the queue head, record
it, sort its dependents and decrement them.  Returns the popped sequence,
the final in-degree map, and the remaining queue (empty unless the fuel
ran out; the fuel used by `kahnRun` is proven sufficient below). -/
def kahnLoop (results : List RepoResult) :
    Nat → (String → Int) → List String → List String → List String × (String → Int) × List String
  | 0, deg, queue, popped => (popped, deg, queue)
  | _ + 1, deg, [], popped => (popped, deg, [])
  | fuel + 1, deg, mod :: rest, popped =>
      let p := stepDeps deg rest (sortStrings (dependentsOf results mod))
      kahnLoop results fuel p.1 p.2 (popped ++ [mod])

/-- Runs the Kahn loop of `TopologicalSort`: the initial queue is the
sorted list of zero-in-degree keys, where `initOrder` is the Go map
iteration order over the in-degree keys. -/
def kahnRun (results : List RepoResult) (initOrder : List String) :
    List String × (String → Int) × List String :=
  kahnLoop results (results.length + 1) (inDegree0 results)
    (sortStrings (initOrder.filter (fun m => inDegree0 results m == 0))) []

/-- Embeds `TopologicalSort`: the ordered results are the popped module
names resolved through `moduleToResult`; the cyclic list collects the
keys with positive final in-degree in `cycleOrder`, the Go map iteration
order of the second `range inDegree` loop. -/
def TopologicalSort (results : List RepoResult) (initOrder cycleOrder : List String) :
    List RepoResult × List String :=
  let run := kahnRun results initOrder
  (run.1.filterMap (moduleToResult results),
    cycleOrder.filter (fun m => decide (0 < run.2.1 m)))

/-- Modelled from the spec (tie-break rule of §4.4), not from the code:
Kahn's algorithm driven by a priority queue, removing the
lexicographically smallest currently-ready node at every step.  Claim C1
asserts that `TopologicalSort` behaves like this. -/
def kahnMinLoop (results : List RepoResult) :
    Nat → (String → Int) → List String → List String → List String
  | 0, _, _, popped => popped
  | fuel + 1, deg, ready, popped =>
      match sortStrings ready with
      | [] => popped
      | mod :: rest =>
          let p := stepDeps deg rest (dependentsOf results mod)
          kahnMinLoop results fuel p.1 p.2 (popped ++ [mod])

/-- Modelled from the spec: the ordered identities produced by
priority-queue Kahn. -/
def kahnPriority (results : List RepoResult) (initOrder : List String) : List String :=
  kahnMinLoop results (results.length + 1) (inDegree0 results)
    (initOrder.filter (fun m => inDegree0 results m == 0)) []

end GitScan
namespace GitScan

/-- A fact that depends on `b`, plus two independent facts `b`, `c`. -/
def cexA : RepoResult := { Name := "a", ModuleName := "a", Dependencies := ["b"] }
def cexB : RepoResult := { Name := "b", ModuleName := "b" }
def cexC : RepoResult := { Name := "c", ModuleName := "c" }

/-- Counterexample to claim C1 as stated: after `b` is removed, the ready
set is {a, c} and the lexicographically smallest ready node is `a`, but
the code's FIFO queue removes `c` first; the code's output differs from
the spec's priority-queue algorithm. -/
theorem topo_tiebreak_cex :
    (TopologicalSort [cexB, cexC, cexA] ["b", "c", "a"] ["b", "c", "a"]).1.map
        (fun r => r.ModuleName) = ["b", "c", "a"] ∧
    kahnPriority [cexB, cexC, cexA] ["b", "c", "a"] = ["b", "a", "c"] ∧
    List.Perm ["b", "c", "a"] (moduleKeys [cexB, cexC, cexA]) := by decide

/-- A two-node dependency cycle plus one unrelated fact. -/
def cycA : RepoResult := { Name := "a", ModuleName := "a", Dependencies := ["b"] }
def cycB : RepoResult := { Name := "b", ModuleName := "b", Dependencies := ["a"] }
def cycZ : RepoResult := { Name := "z", ModuleName := "z" }

/-- Counterexample to claim C4 as stated: the ordered output is the same,
but the cyclic list follows the (unsorted) map iteration order of the
final `range inDegree` loop, so two valid iteration orders of the same
input produce different outputs. -/
theorem topo_cycles_order_cex :
    (TopologicalSort [cycA, cycB, cycZ] ["a", "b", "z"] ["a", "b", "z"]).2 = ["a", "b"] ∧
    (TopologicalSort [cycA, cycB, cycZ] ["a", "b", "z"] ["b", "z", "a"]).2 = ["b", "a"] ∧
    (TopologicalSort [cycA, cycB, cycZ] ["a", "b", "z"] ["a", "b", "z"]) ≠
      (TopologicalSort [cycA, cycB, cycZ] ["a", "b", "z"] ["b", "z", "a"]) ∧
    List.Perm ["a", "b", "z"] (moduleKeys [cycA, cycB, cycZ]) ∧
    List.Perm ["b", "z", "a"] (moduleKeys [cycA, cycB, cycZ]) := by decide

end GitScan
namespace GitScan

/-! ### Characterization lemmas for the graph structures -/

lemma mem_moduleKeys {results : List RepoResult} {m : String} :
    m ∈ moduleKeys results ↔ (∃ r ∈ results, r.ModuleName = m) ∧ m ≠ "" := by
  unfold moduleKeys
  rw [List.mem_dedup, List.mem_filter, List.mem_map]
  constructor
  · rintro ⟨⟨r, hr, rfl⟩, h2⟩
    exact ⟨⟨r, hr, rfl⟩, by simpa using h2⟩
  · rintro ⟨⟨r, hr, rfl⟩, h2⟩
    exact ⟨⟨r, hr, rfl⟩, by simpa using h2⟩

lemma moduleKeys_nodup (results : List RepoResult) : (moduleKeys results).Nodup :=
  List.nodup_dedup _

lemma managedB_iff {results : List RepoResult} {m : String} :
    managedB results m = true ↔ m ∈ moduleKeys results := by
  unfold managedB moduleToResult
  by_cases hm : m = ""
  · simp [hm, mem_moduleKeys]
  · rw [if_neg hm, Option.isSome_iff_exists]
    constructor
    · rintro ⟨r, hr⟩
      have h1 := List.find?_some hr
      have h2 := List.mem_of_find?_eq_some hr
      rw [List.mem_reverse] at h2
      exact mem_moduleKeys.mpr ⟨⟨r, h2, by simpa using h1⟩, hm⟩
    · intro hk
      obtain ⟨⟨r, hr, hname⟩, -⟩ := mem_moduleKeys.mp hk
      have hfind : ((results.reverse.find? (fun r => r.ModuleName == m)).isSome = true) := by
        rw [List.find?_isSome]
        refine ⟨r, List.mem_reverse.mpr hr, ?_⟩
        rw [hname]
        exact beq_self_eq_true m
      exact Option.isSome_iff_exists.mp hfind

lemma moduleToResult_name {results : List RepoResult} {m : String} {r : RepoResult}
    (h : moduleToResult results m = some r) : r.ModuleName = m := by
  unfold moduleToResult at h
  by_cases hm : m = ""
  · rw [if_pos hm] at h; cases h
  · rw [if_neg hm] at h
    have := List.find?_some h
    simpa using this

lemma moduleToResult_mem {results : List RepoResult} {m : String} {r : RepoResult}
    (h : moduleToResult results m = some r) : r ∈ results := by
  unfold moduleToResult at h
  by_cases hm : m = ""
  · rw [if_pos hm] at h; cases h
  · rw [if_neg hm] at h
    exact List.mem_reverse.mp (List.mem_of_find?_eq_some h)

lemma mem_dependentsAux {isM : String → Bool} {rs : List RepoResult} {d m : String} :
    m ∈ dependentsAux isM rs d ↔
      (∃ r ∈ rs, r.ModuleName = m ∧ d ∈ r.Dependencies) ∧ m ≠ "" ∧ isM d = true := by
  unfold dependentsAux
  rw [List.mem_flatMap]
  constructor
  · rintro ⟨r, hr, hm⟩
    by_cases hname : r.ModuleName = ""
    · simp [hname] at hm
    · rw [if_neg hname] at hm
      rw [List.mem_map] at hm
      obtain ⟨dep, hdep, rfl⟩ := hm
      rw [List.mem_filter] at hdep
      obtain ⟨hdep1, hdep2⟩ := hdep
      rw [Bool.and_eq_true, beq_iff_eq] at hdep2
      obtain ⟨rfl, hM⟩ := hdep2
      exact ⟨⟨r, hr, rfl, hdep1⟩, hname, hM⟩
  · rintro ⟨⟨r, hr, rfl, hd⟩, hne, hM⟩
    refine ⟨r, hr, ?_⟩
    rw [if_neg hne, List.mem_map]
    exact ⟨d, List.mem_filter.mpr ⟨hd, by simp [hM]⟩, rfl⟩

lemma mem_dependentsOf_keys {results : List RepoResult} {d m : String}
    (h : m ∈ dependentsOf results d) :
    m ∈ moduleKeys results ∧ d ∈ moduleKeys results := by
  obtain ⟨⟨r, hr, rfl, -⟩, hne, hM⟩ := mem_dependentsAux.mp h
  exact ⟨mem_moduleKeys.mpr ⟨⟨r, hr, rfl⟩, hne⟩, managedB_iff.mp hM⟩

lemma filterMap_moduleToResult_names {results : List RepoResult} :
    ∀ {l : List String}, (∀ m ∈ l, m ∈ moduleKeys results) →
      (l.filterMap (moduleToResult results)).map (fun r => r.ModuleName) = l
  | [], _ => rfl
  | m :: l, h => by
      have hm := h m (by simp)
      have : ∃ r, moduleToResult results m = some r := by
        have := managedB_iff.mpr hm
        unfold managedB at this
        exact Option.isSome_iff_exists.mp this
      obtain ⟨r, hr⟩ := this
      rw [List.filterMap_cons, hr, List.map_cons, moduleToResult_name hr,
        filterMap_moduleToResult_names (fun x hx => h x (by simp [hx]))]

end GitScan
namespace GitScan

lemma sum_map_add (l : List String) (f g : String → Nat) :
    (l.map (fun x => f x + g x)).sum = (l.map f).sum + (l.map g).sum := by
  induction l with
  | nil => rfl
  | cons x xs ih => simp [List.map_cons, ih]; omega

lemma sum_ite_eq_countP (l : List String) (q : String → Bool) :
    (l.map (fun d => if q d then 1 else 0)).sum = l.countP q := by
  induction l with
  | nil => rfl
  | cons x xs ih =>
      by_cases h : q x
      · simp only [List.map_cons, List.countP_cons, h, if_true, List.sum_cons, ih]
        omega
      · simp only [List.map_cons, List.countP_cons, h, if_false, List.sum_cons, ih]
        omega

lemma count_flatMap (f : RepoResult → List String) (rs : List RepoResult) (m : String) :
    ((rs.flatMap f).count m) = (rs.map (fun r => (f r).count m)).sum := by
  induction rs with
  | nil => rfl
  | cons r rs ih => simp [List.flatMap_cons, List.count_append, ih]

lemma sum_filter_choose {K : List String} (hK : K.Nodup) (isM : String → Bool)
    (hiff : ∀ d, isM d = true ↔ d ∈ K) (deps : List String) :
    (K.map (fun d => (deps.filter (fun dep => dep == d && isM dep)).length)).sum
      = (deps.filter isM).length := by
  induction deps with
  | nil => simp
  | cons x deps ih =>
      have hstep : ∀ d : String,
          ((x :: deps).filter (fun dep => dep == d && isM dep)).length
            = (if x == d && isM x then 1 else 0)
              + (deps.filter (fun dep => dep == d && isM dep)).length := by
        intro d
        by_cases h : (x == d && isM x) = true
        · rw [List.filter_cons_of_pos (by simpa using h), if_pos h]
          simp [Nat.add_comm]
        · rw [List.filter_cons_of_neg (by simpa using h), if_neg h]
          simp
      calc (K.map (fun d => ((x :: deps).filter (fun dep => dep == d && isM dep)).length)).sum
          = (K.map (fun d => (if x == d && isM x then 1 else 0)
              + (deps.filter (fun dep => dep == d && isM dep)).length)).sum := by
            congr 1
            exact List.map_congr_left (fun d _ => hstep d)
        _ = (K.map (fun d => if x == d && isM x then 1 else 0)).sum
              + (K.map (fun d => (deps.filter (fun dep => dep == d && isM dep)).length)).sum :=
            sum_map_add K _ _
        _ = (if isM x then 1 else 0) + (deps.filter isM).length := by
            rw [ih]
            congr 1
            by_cases hM : isM x = true
            · rw [if_pos hM]
              have : ∀ d ∈ K, ((x == d && isM x) = (x == d)) := by
                intro d _
                rw [hM, Bool.and_true]
              rw [List.map_congr_left (fun d hd => by rw [this d hd]),
                sum_ite_eq_countP K (fun d => x == d)]
              have hxK : x ∈ K := (hiff x).mp hM
              have hcongr : K.countP (fun d => x == d) = K.countP (fun d => d == x) := by
                apply List.countP_congr
                intro a _
                constructor
                · intro hax
                  rw [beq_iff_eq] at hax ⊢
                  exact hax.symm
                · intro hax
                  rw [beq_iff_eq] at hax ⊢
                  exact hax.symm
              rw [hcongr, ← List.count, List.count_eq_one_of_mem hK hxK]
            · rw [if_neg hM]
              have hM' : isM x = false := by revert hM; cases isM x <;> simp
              have : ∀ d ∈ K, ((x == d && isM x) = false) := by
                intro d _
                rw [hM', Bool.and_false]
              rw [List.map_congr_left (fun d hd => by rw [this d hd])]
              simp
        _ = ((x :: deps).filter isM).length := by
            by_cases hM : isM x = true
            · rw [List.filter_cons_of_pos hM, if_pos hM]
              simp [Nat.add_comm]
            · rw [List.filter_cons_of_neg (by simpa using hM), if_neg hM]
              simp

end GitScan
namespace GitScan

/-- The total of `dependents`-edge occurrences pointing at `m`, summed over
the key set, equals the initial in-degree of `m`. -/
lemma sum_count_dependents (isM : String → Bool) (rs : List RepoResult)
    {K : List String} (hK : K.Nodup) (hiff : ∀ d, isM d = true ↔ d ∈ K) (m : String) :
    (K.map (fun d => (dependentsAux isM rs d).count m)).sum = inDegreeAux isM rs m := by
  induction rs with
  | nil =>
      unfold dependentsAux inDegreeAux
      simp
  | cons r rs ih =>
      have hsplit : ∀ d, dependentsAux isM (r :: rs) d
          = (if r.ModuleName = "" then []
             else (r.Dependencies.filter (fun dep => dep == d && isM dep)).map
               (fun _ => r.ModuleName)) ++ dependentsAux isM rs d := by
        intro d
        unfold dependentsAux
        rw [List.flatMap_cons]
      have hmapstep : (K.map (fun d => (dependentsAux isM (r :: rs) d).count m)).sum
          = (K.map (fun d => ((if r.ModuleName = "" then []
              else (r.Dependencies.filter (fun dep => dep == d && isM dep)).map
                (fun _ => r.ModuleName)).count m))).sum
            + (K.map (fun d => (dependentsAux isM rs d).count m)).sum := by
        rw [← sum_map_add]
        congr 1
        apply List.map_congr_left
        intro d _
        rw [hsplit d, List.count_append]
      rw [hmapstep, ih]
      by_cases hm : m = ""
      · subst hm
        have hz : ∀ d ∈ K, ((if r.ModuleName = "" then []
            else (r.Dependencies.filter (fun dep => dep == d && isM dep)).map
              (fun _ => r.ModuleName)).count "") = 0 := by
          intro d _
          by_cases hname : r.ModuleName = ""
          · rw [if_pos hname]; rfl
          · rw [if_neg hname]
            rw [List.count_eq_zero]
            intro hmem
            rw [List.mem_map] at hmem
            obtain ⟨dep, -, hdep⟩ := hmem
            exact hname hdep
        rw [List.map_congr_left hz]
        unfold inDegreeAux
        simp
      · by_cases hname : r.ModuleName = ""
        · have hz : ∀ d ∈ K, ((if r.ModuleName = "" then []
              else (r.Dependencies.filter (fun dep => dep == d && isM dep)).map
                (fun _ => r.ModuleName)).count m) = 0 := by
            intro d _
            rw [if_pos hname]; rfl
          rw [List.map_congr_left hz]
          unfold inDegreeAux
          rw [if_neg hm, if_neg hm]
          have hneq : (r.ModuleName == m) = false := by
            rw [hname]
            exact beq_eq_false_iff_ne.mpr (fun h => hm h.symm)
          simp only [List.filter_cons, hneq, Bool.false_eq_true, if_false]
          simp
        · have hcount : ∀ d ∈ K, ((if r.ModuleName = "" then []
              else (r.Dependencies.filter (fun dep => dep == d && isM dep)).map
                (fun _ => r.ModuleName)).count m)
              = if r.ModuleName == m
                then (r.Dependencies.filter (fun dep => dep == d && isM dep)).length
                else 0 := by
            intro d _
            rw [if_neg hname, List.map_const', List.count_replicate]
          rw [List.map_congr_left hcount]
          by_cases he : r.ModuleName == m
          · have hsum : (K.map (fun d => if r.ModuleName == m
                then (r.Dependencies.filter (fun dep => dep == d && isM dep)).length
                else 0)).sum
                = (K.map (fun d =>
                    (r.Dependencies.filter (fun dep => dep == d && isM dep)).length)).sum := by
              congr 1
              exact List.map_congr_left (fun d _ => by rw [if_pos he])
            rw [hsum, sum_filter_choose hK isM hiff]
            unfold inDegreeAux
            rw [if_neg hm, if_neg hm]
            simp only [List.filter_cons, he, if_true]
            simp [List.map_cons, List.sum_cons, Nat.add_comm]
          · have hsum : (K.map (fun d => if r.ModuleName == m
                then (r.Dependencies.filter (fun dep => dep == d && isM dep)).length
                else 0)).sum = 0 := by
              have : ∀ d ∈ K, (if r.ModuleName == m
                  then (r.Dependencies.filter (fun dep => dep == d && isM dep)).length
                  else 0) = 0 := fun d _ => by rw [if_neg he]
              rw [List.map_congr_left this]
              simp
            rw [hsum]
            unfold inDegreeAux
            rw [if_neg hm, if_neg hm]
            have he'' : (r.ModuleName == m) = false := by
              revert he
              cases r.ModuleName == m
              · intro h2
                rfl
              · intro h2
                exact absurd rfl h2
            simp only [List.filter_cons, he'', Bool.false_eq_true, if_false]
            simp

end GitScan
namespace GitScan

lemma count_cons_self_int (d : String) (ds : List String) :
    (((d :: ds).count d : Nat) : Int) = (ds.count d : Int) + 1 := by
  rw [List.count_cons]
  simp

lemma count_cons_ne_int {m d : String} (hmd : ¬ m = d) (ds : List String) :
    (((d :: ds).count m : Nat) : Int) = (ds.count m : Int) := by
  rw [List.count_cons]
  have hdm : ¬ d = m := fun h => hmd h.symm
  simp [hmd, hdm]

/-- Complete description of a pass of `stepDeps`: the queue is extended
(in order) by exactly the nodes whose degree crossed zero, each appended
once, and every degree drops by the node's multiplicity in the processed
list. -/
lemma stepDeps_spec : ∀ (ds : List String) (deg : String → Int) (queue : List String),
    ∃ extra,
      (stepDeps deg queue ds).2 = queue ++ extra ∧
      (∀ m, (stepDeps deg queue ds).1 m = deg m - (ds.count m : Int)) ∧
      extra.Nodup ∧
      (∀ m, m ∈ extra ↔ (0 < deg m ∧ deg m ≤ (ds.count m : Int))) ∧
      (∀ m ∈ extra, m ∈ ds)
  | [], deg, queue => by
      refine ⟨[], by simp [stepDeps], ?_, List.nodup_nil, ?_, by simp⟩
      · intro m
        simp [stepDeps]
      · intro m
        simp only [List.not_mem_nil, false_iff, List.count_nil]
        intro h
        obtain ⟨h1, h2⟩ := h
        simp at h2
        omega
  | d :: ds, deg, queue => by
      have hstep : stepDeps deg queue (d :: ds)
          = stepDeps (fun x => if x = d then deg d - 1 else deg x)
              (if deg d - 1 = 0 then queue ++ [d] else queue) ds := rfl
      obtain ⟨extra1, hq1, hd1, hn1, hm1, hs1⟩ :=
        stepDeps_spec ds (fun x => if x = d then deg d - 1 else deg x)
          (if deg d - 1 = 0 then queue ++ [d] else queue)
      refine ⟨(if deg d - 1 = 0 then [d] else []) ++ extra1, ?_, ?_, ?_, ?_, ?_⟩
      · rw [hstep, hq1]
        by_cases hv : deg d - 1 = 0
        · rw [if_pos hv, if_pos hv, List.append_assoc]
        · rw [if_neg hv, if_neg hv]
          rfl
      · intro m
        rw [hstep, hd1 m]
        by_cases hmd : m = d
        · rw [if_pos hmd, hmd, count_cons_self_int]
          omega
        · rw [if_neg hmd, count_cons_ne_int hmd]
      · by_cases hv : deg d - 1 = 0
        · rw [if_pos hv]
          refine List.Nodup.cons ?_ hn1
          intro hdin
          have hx := (hm1 d).mp hdin
          rw [if_pos rfl] at hx
          omega
        · rw [if_neg hv]
          exact hn1
      · intro m
        rw [List.mem_append]
        by_cases hmd : m = d
        · rw [hmd, count_cons_self_int]
          constructor
          · intro h
            rcases h with h | h
            · by_cases hv : deg d - 1 = 0
              · have hcnt : (0 : Int) ≤ (ds.count d : Int) := by positivity
                omega
              · rw [if_neg hv] at h
                cases h
            · have hx := (hm1 d).mp h
              rw [if_pos rfl] at hx
              omega
          · intro h
            obtain ⟨h1, h2⟩ := h
            by_cases hv : deg d - 1 = 0
            · left
              rw [if_pos hv]
              simp
            · right
              rw [hm1 d, if_pos rfl]
              omega
        · rw [count_cons_ne_int hmd]
          constructor
          · intro h
            rcases h with h | h
            · by_cases hv : deg d - 1 = 0
              · rw [if_pos hv] at h
                simp only [List.mem_singleton] at h
                exact absurd h hmd
              · rw [if_neg hv] at h
                cases h
            · have hx := (hm1 m).mp h
              rw [if_neg hmd] at hx
              exact hx
          · intro h
            right
            rw [hm1 m, if_neg hmd]
            exact h
      · intro m hmem
        rw [List.mem_append] at hmem
        rcases hmem with h | h
        · by_cases hv : deg d - 1 = 0
          · rw [if_pos hv] at h
            simp only [List.mem_singleton] at h
            rw [h]
            simp
          · rw [if_neg hv] at h
            cases h
        · exact List.mem_cons_of_mem d (hs1 m h)

end GitScan
namespace GitScan

/-- Ghost quantity: the in-degree of `m` counting only edges from keys not
yet popped. -/
def remainingInDeg (results : List RepoResult) (P : List String) (m : String) : Nat :=
  ((moduleKeys results).map
    (fun d => if d ∈ P then 0 else (dependentsOf results d).count m)).sum

/-- Initially the remaining in-degree is the full in-degree. -/
lemma remainingInDeg_nil (results : List RepoResult) (m : String) :
    remainingInDeg results [] m = inDegreeAux (managedB results) results m := by
  unfold remainingInDeg
  rw [List.map_congr_left (fun d _ => by rw [if_neg (List.not_mem_nil d)])]
  exact sum_count_dependents (managedB results) results (moduleKeys_nodup results)
    (fun d => managedB_iff) m

lemma remainingInDeg_nil_int (results : List RepoResult) (m : String) :
    (remainingInDeg results [] m : Int) = inDegree0 results m := by
  rw [remainingInDeg_nil]
  rfl

lemma sum_map_update {K : List String} (hK : K.Nodup) (f g : String → Nat) (mo : String)
    (hmoK : mo ∈ K) (hfg : ∀ d, d ≠ mo → f d = g d) :
    (K.map f).sum + g mo = (K.map g).sum + f mo := by
  induction K with
  | nil => cases hmoK
  | cons k K ih =>
      rw [List.nodup_cons] at hK
      rcases List.mem_cons.mp hmoK with h | h
      · subst h
        have hcongr : K.map f = K.map g :=
          List.map_congr_left (fun d hd => hfg d (fun hdm => hK.1 (hdm ▸ hd)))
        rw [List.map_cons, List.map_cons, hcongr]
        simp [Nat.add_comm, Nat.add_assoc, Nat.add_left_comm]
      · have hk : k ≠ mo := fun hkm => hK.1 (hkm ▸ h)
        have := ih hK.2 h
        rw [List.map_cons, List.map_cons, hfg k hk]
        simp only [List.sum_cons]
        omega

/-- Popping an unpopped key removes exactly its edge contribution. -/
lemma remainingInDeg_pop (results : List RepoResult) {P : List String} {mo : String}
    (hmoK : mo ∈ moduleKeys results) (hmoP : mo ∉ P) (m : String) :
    remainingInDeg results P m
      = (dependentsOf results mo).count m + remainingInDeg results (P ++ [mo]) m := by
  unfold remainingInDeg
  have h := sum_map_update (moduleKeys_nodup results)
    (fun d => if d ∈ P then 0 else (dependentsOf results d).count m)
    (fun d => if d ∈ P ++ [mo] then 0 else (dependentsOf results d).count m)
    mo hmoK
    (fun d hd => by
      show (if d ∈ P then 0 else (dependentsOf results d).count m)
          = (if d ∈ P ++ [mo] then 0 else (dependentsOf results d).count m)
      by_cases hdP : d ∈ P
      · rw [if_pos hdP, if_pos (List.mem_append_left _ hdP)]
      · rw [if_neg hdP, if_neg (by
          rw [List.mem_append]
          rintro (h1 | h1)
          · exact hdP h1
          · simp only [List.mem_singleton] at h1
            exact hd h1)])
  have h2 : ((moduleKeys results).map
        (fun d => if d ∈ P then 0 else (dependentsOf results d).count m)).sum
        + (if mo ∈ P ++ [mo] then 0 else (dependentsOf results mo).count m)
      = ((moduleKeys results).map
        (fun d => if d ∈ P ++ [mo] then 0 else (dependentsOf results d).count m)).sum
        + (if mo ∈ P then 0 else (dependentsOf results mo).count m) := h
  rw [if_pos (by simp), if_neg hmoP] at h2
  omega

/-- A zero remaining in-degree means every edge source is already popped. -/
lemma remainingInDeg_zero_iff (results : List RepoResult) (P : List String) (m : String) :
    remainingInDeg results P m = 0 ↔
      ∀ d ∈ moduleKeys results, 0 < (dependentsOf results d).count m → d ∈ P := by
  unfold remainingInDeg
  rw [List.sum_eq_zero_iff]
  constructor
  · intro h d hd hc
    have := h (if d ∈ P then 0 else (dependentsOf results d).count m) (by
      rw [List.mem_map]
      exact ⟨d, hd, rfl⟩)
    by_cases hdP : d ∈ P
    · exact hdP
    · rw [if_neg hdP] at this
      omega
  · intro h x hx
    rw [List.mem_map] at hx
    obtain ⟨d, hd, rfl⟩ := hx
    by_cases hdP : d ∈ P
    · rw [if_pos hdP]
    · rw [if_neg hdP]
      by_cases hc : 0 < (dependentsOf results d).count m
      · exact absurd (h d hd hc) hdP
      · omega

/-- Number of keys with positive degree. -/
def posCount (results : List RepoResult) (deg : String → Int) : Nat :=
  (moduleKeys results).countP (fun m => decide (0 < deg m))

lemma countP_split (l : List String) (p q : String → Bool) :
    l.countP p = l.countP (fun a => p a && q a) + l.countP (fun a => p a && !q a) := by
  induction l with
  | nil => rfl
  | cons x xs ih =>
      by_cases hp : p x
      · by_cases hq : q x
        · rw [List.countP_cons, List.countP_cons, List.countP_cons]
          simp [hp, hq, ih]
          omega
        · rw [List.countP_cons, List.countP_cons, List.countP_cons]
          simp [hp, hq, ih]
          omega
      · rw [List.countP_cons, List.countP_cons, List.countP_cons]
        simp [hp, ih]

/-- Each zero-crossing node strictly reduces the positive-degree count. -/
lemma posCount_step (results : List RepoResult) (deg deg' : String → Int)
    (hle : ∀ m, deg' m ≤ deg m) (extra : List String) (hnd : extra.Nodup)
    (hsub : ∀ m ∈ extra, m ∈ moduleKeys results)
    (hflip : ∀ m ∈ extra, 0 < deg m ∧ deg' m ≤ 0) :
    posCount results deg' + extra.length ≤ posCount results deg := by
  unfold posCount
  rw [countP_split (moduleKeys results) (fun m => decide (0 < deg m))
    (fun m => decide (0 < deg' m))]
  have h1 : (moduleKeys results).countP (fun m => decide (0 < deg' m))
      ≤ (moduleKeys results).countP
        (fun m => decide (0 < deg m) && decide (0 < deg' m)) := by
    apply List.countP_mono_left
    intro a _ ha
    rw [decide_eq_true_eq] at ha
    have := hle a
    simp only [Bool.and_eq_true, decide_eq_true_eq]
    exact ⟨by omega, ha⟩
  have h2 : extra.length ≤ (moduleKeys results).countP
      (fun m => decide (0 < deg m) && !decide (0 < deg' m)) := by
    rw [List.countP_eq_length_filter]
    apply List.Subperm.length_le
    apply List.subperm_of_subset hnd
    intro m hm
    rw [List.mem_filter]
    refine ⟨hsub m hm, ?_⟩
    obtain ⟨hpos, hnp⟩ := hflip m hm
    simp only [Bool.and_eq_true, decide_eq_true_eq, Bool.not_eq_true']
    constructor
    · exact hpos
    · rw [decide_eq_false_iff_not]
      omega
  omega

end GitScan
namespace GitScan

lemma append_singleton_split {l u v : List String} {x mid : String}
    (h : l ++ [x] = u ++ mid :: v) :
    (u = l ∧ mid = x ∧ v = []) ∨ ∃ v', v = v' ++ [x] ∧ l = u ++ mid :: v' := by
  rcases List.eq_nil_or_concat v with rfl | ⟨v', a, rfl⟩
  · left
    obtain ⟨h1, h2⟩ := List.append_inj' h rfl
    refine ⟨h1.symm, ?_, rfl⟩
    injection h2 with h3
    exact h3.symm
  · right
    simp only [List.concat_eq_append] at h ⊢
    have hrw : u ++ mid :: (v' ++ [a]) = (u ++ mid :: v') ++ [a] := by simp
    rw [hrw] at h
    obtain ⟨h1, h2⟩ := List.append_inj' h rfl
    injection h2 with h3
    exact ⟨v', by rw [h3], h1⟩

/-- Invariant of the Kahn loop: popped and queued nodes are distinct keys;
the degree function records the remaining in-degree relative to the popped
set; a key is popped-or-queued exactly when its degree is non-positive;
and every popped node's managed dependencies precede it. -/
structure KahnInv (results : List RepoResult) (deg : String → Int)
    (queue popped : List String) : Prop where
  nodup : (popped ++ queue).Nodup
  sub : ∀ m ∈ popped ++ queue, m ∈ moduleKeys results
  degEq : ∀ m ∈ moduleKeys results, deg m = (remainingInDeg results popped m : Int)
  mem : ∀ m ∈ moduleKeys results, (m ∈ popped ∨ m ∈ queue) ↔ deg m ≤ 0
  closed : ∀ u mid v, popped = u ++ mid :: v → ∀ d, mid ∈ dependentsOf results d → d ∈ u

/-- The Kahn loop drains its queue given sufficient fuel, preserves the
invariant, and extends the popped sequence FIFO-fashion: the pending queue
is popped in order before anything readied later. -/
lemma kahnLoop_spec (results : List RepoResult) :
    ∀ (fuel : Nat) (deg : String → Int) (queue popped : List String),
      KahnInv results deg queue popped →
      queue.length + posCount results deg ≤ fuel →
      ∃ Pf degF,
        kahnLoop results fuel deg queue popped = (Pf, degF, []) ∧
        KahnInv results degF [] Pf ∧
        (popped ++ queue) <+: Pf
  | 0, deg, queue, popped => fun hinv hfuel => by
      have hq : queue = [] := by
        cases queue with
        | nil => rfl
        | cons a q => simp [List.length_cons] at hfuel
      subst hq
      exact ⟨popped, deg, rfl, hinv, by simp⟩
  | fuel + 1, deg, [], popped => fun hinv _ => ⟨popped, deg, rfl, hinv, by simp⟩
  | fuel + 1, deg, mod :: rest, popped => fun hinv hfuel => by
      obtain ⟨extra, hq, hdg, hnd, hmemx, hsubx⟩ :=
        stepDeps_spec (sortStrings (dependentsOf results mod)) deg rest
      have hcnt : ∀ m, (sortStrings (dependentsOf results mod)).count m
          = (dependentsOf results mod).count m :=
        fun m => (sortStrings_perm (dependentsOf results mod)).count_eq m
      have hdsmem : ∀ m, m ∈ sortStrings (dependentsOf results mod)
          ↔ m ∈ dependentsOf results mod :=
        fun m => (sortStrings_perm (dependentsOf results mod)).mem_iff
      have hmodK : mod ∈ moduleKeys results := hinv.sub mod (by simp)
      have hmid := List.nodup_middle.mp hinv.nodup
      have hmodnotP : mod ∉ popped := fun hc =>
        (List.nodup_cons.mp hmid).1 (List.mem_append_left _ hc)
      have hdegmod : deg mod ≤ 0 := (hinv.mem mod hmodK).mp (Or.inr (by simp))
      have hdegmodEq := hinv.degEq mod hmodK
      have hrem0 : remainingInDeg results popped mod = 0 := by omega
      have hsubK : ∀ m ∈ extra, m ∈ moduleKeys results := fun m hm =>
        (mem_dependentsOf_keys ((hdsmem m).mp (hsubx m hm))).1
      have hflip : ∀ m ∈ extra, 0 < deg m ∧ (stepDeps deg rest
          (sortStrings (dependentsOf results mod))).1 m ≤ 0 := by
        intro m hm
        obtain ⟨h1, h2⟩ := (hmemx m).mp hm
        exact ⟨h1, by rw [hdg m]; omega⟩
      have hle : ∀ m, (stepDeps deg rest (sortStrings (dependentsOf results mod))).1 m ≤ deg m := by
        intro m
        rw [hdg m]
        have : (0 : Int) ≤ ((sortStrings (dependentsOf results mod)).count m : Int) := by positivity
        omega
      -- the new invariant
      have hAnodup : (popped ++ mod :: rest).Nodup := hinv.nodup
      have hdisj : (popped ++ mod :: rest).Disjoint extra := by
        intro m hmA hmE
        have hmK : m ∈ moduleKeys results := hinv.sub m hmA
        have : deg m ≤ 0 := (hinv.mem m hmK).mp (by
          rcases List.mem_append.mp hmA with h | h
          · exact Or.inl h
          · exact Or.inr h)
        have := (hmemx m).mp hmE
        omega
      have hinv' : KahnInv results
          (stepDeps deg rest (sortStrings (dependentsOf results mod))).1
          (rest ++ extra) (popped ++ [mod]) := by
        constructor
        · have heq : (popped ++ [mod]) ++ (rest ++ extra)
              = (popped ++ mod :: rest) ++ extra := by simp
          rw [heq]
          exact hAnodup.append hnd hdisj
        · intro m hm
          rcases List.mem_append.mp hm with h | h
          · rcases List.mem_append.mp h with h1 | h1
            · exact hinv.sub m (List.mem_append_left _ h1)
            · simp only [List.mem_singleton] at h1
              rw [h1]
              exact hmodK
          · rcases List.mem_append.mp h with h1 | h1
            · exact hinv.sub m (List.mem_append_right _ (List.mem_cons_of_mem _ h1))
            · exact hsubK m h1
        · intro m hmK
          rw [hdg m, hcnt m, hinv.degEq m hmK,
            remainingInDeg_pop results hmodK hmodnotP m]
          push_cast
          omega
        · intro m hmK
          by_cases hm : m = mod
          · rw [hm]
            have h1 : mod ∈ popped ++ [mod] := List.mem_append_right _ (by simp)
            have h2 : (stepDeps deg rest (sortStrings (dependentsOf results mod))).1 mod ≤ 0 := by
              have := hle mod
              omega
            exact iff_of_true (Or.inl h1) h2
          · have hmemold := hinv.mem m hmK
            have hq1 : m ∈ popped ++ [mod] ↔ m ∈ popped := by
              rw [List.mem_append]
              simp [hm]
            have hq2 : m ∈ mod :: rest ↔ m ∈ rest := by simp [hm]
            rw [hq1, List.mem_append]
            constructor
            · rintro (h | h | h)
              · have : deg m ≤ 0 := hmemold.mp (Or.inl h)
                have := hle m
                omega
              · have : deg m ≤ 0 := hmemold.mp (Or.inr (hq2.mpr h))
                have := hle m
                omega
              · exact ((hmemx m).mp h).2 |> fun h2 => by rw [hdg m]; omega
            · intro hdeg'
              rw [hdg m] at hdeg'
              by_cases h0 : deg m ≤ 0
              · rcases hmemold.mpr h0 with h | h
                · exact Or.inl h
                · exact Or.inr (Or.inl (hq2.mp h))
              · right; right
                rw [hmemx m]
                constructor
                · omega
                · omega
        · intro u mid v hsplit d hd
          rcases append_singleton_split hsplit with ⟨hu, hmid, -⟩ | ⟨v', -, hpop⟩
          · rw [hu]
            rw [hmid] at hd
            have hdK := (mem_dependentsOf_keys hd).2
            have hcpos : 0 < (dependentsOf results d).count mod :=
              List.one_le_count_iff.mpr hd
            exact (remainingInDeg_zero_iff results popped mod).mp hrem0 d hdK hcpos
          · exact hinv.closed u mid v' hpop d hd
      -- measure
      have hstep := posCount_step results deg
        (stepDeps deg rest (sortStrings (dependentsOf results mod))).1
        hle extra hnd hsubK hflip
      have hmeasure : (rest ++ extra).length
          + posCount results (stepDeps deg rest (sortStrings (dependentsOf results mod))).1
          ≤ fuel := by
        rw [List.length_append]
        have hThis : (mod :: rest).length + posCount results deg ≤ fuel + 1 := hfuel
        rw [List.length_cons] at hThis
        omega
      obtain ⟨Pf, degF, heq, hinvF, hpre⟩ := kahnLoop_spec results fuel
        (stepDeps deg rest (sortStrings (dependentsOf results mod))).1
        (rest ++ extra) (popped ++ [mod]) hinv' hmeasure
      refine ⟨Pf, degF, ?_, hinvF, ?_⟩
      · have hunfold : kahnLoop results (fuel + 1) deg (mod :: rest) popped
            = kahnLoop results fuel
              (stepDeps deg rest (sortStrings (dependentsOf results mod))).1
              (stepDeps deg rest (sortStrings (dependentsOf results mod))).2
              (popped ++ [mod]) := rfl
        rw [hunfold, hq]
        exact heq
      · have h1 : popped ++ mod :: rest = (popped ++ [mod]) ++ rest := by simp
        have h2 : (popped ++ [mod]) ++ rest <+: (popped ++ [mod]) ++ (rest ++ extra) := by
          rw [← List.append_assoc]
          exact List.prefix_append _ _
        rw [h1]
        exact h2.trans hpre

end GitScan
namespace GitScan

/-! ### The initial state of the Kahn loop satisfies the invariant -/

lemma countP_add_le (l : List String) (p q : String → Bool)
    (h : ∀ a ∈ l, ¬(p a = true ∧ q a = true)) :
    l.countP p + l.countP q ≤ l.length := by
  induction l with
  | nil => simp
  | cons a l ih =>
      have ih2 := ih (fun x hx => h x (by simp [hx]))
      simp only [List.countP_cons, List.length_cons]
      cases hpa : p a with
      | true =>
          have hqa : q a = false := by
            cases hqb : q a with
            | false => rfl
            | true => exact absurd ⟨hpa, hqb⟩ (h a (by simp))
          rw [hqa, if_pos rfl, if_neg (by decide)]
          omega
      | false =>
          rw [if_neg (by decide)]
          cases hqa : q a with
          | true =>
              rw [if_pos rfl]
              omega
          | false =>
              rw [if_neg (by decide)]
              omega

lemma moduleKeys_length_le (results : List RepoResult) :
    (moduleKeys results).length ≤ results.length := by
  unfold moduleKeys
  have h1 : ((results.map (fun r => r.ModuleName)).filter (fun m => !(m == ""))).dedup.length
      ≤ ((results.map (fun r => r.ModuleName)).filter (fun m => !(m == ""))).length :=
    (List.dedup_sublist _).length_le
  have h2 : ((results.map (fun r => r.ModuleName)).filter (fun m => !(m == ""))).length
      ≤ (results.map (fun r => r.ModuleName)).length :=
    (List.filter_sublist _).length_le
  have h3 : (results.map (fun r => r.ModuleName)).length = results.length := by simp
  omega

lemma inDegree0_nonneg (results : List RepoResult) (m : String) :
    0 ≤ inDegree0 results m := by
  unfold inDegree0
  exact Int.natCast_nonneg _

lemma topo_initInv (results : List RepoResult) (initOrder : List String)
    (hperm : List.Perm initOrder (moduleKeys results)) :
    KahnInv results (inDegree0 results)
      (sortStrings (initOrder.filter (fun m => inDegree0 results m == 0))) [] := by
  constructor
  · rw [List.nil_append]
    exact ((sortStrings_perm _).nodup_iff).mpr
      ((hperm.nodup_iff.mpr (moduleKeys_nodup results)).filter _)
  · intro m hm
    rw [List.nil_append] at hm
    have h1 := (List.mem_filter.mp ((sortStrings_perm _).mem_iff.mp hm)).1
    exact hperm.mem_iff.mp h1
  · intro m _
    exact (remainingInDeg_nil_int results m).symm
  · intro m hmK
    constructor
    · rintro (h | h)
      · exact absurd h (List.not_mem_nil m)
      · have h1 := List.mem_filter.mp ((sortStrings_perm _).mem_iff.mp h)
        have h2 : inDegree0 results m = 0 := by
          have := h1.2
          simpa using this
        omega
    · intro hle
      have h0 : inDegree0 results m = 0 :=
        le_antisymm hle (inDegree0_nonneg results m)
      refine Or.inr ?_
      rw [(sortStrings_perm _).mem_iff, List.mem_filter]
      exact ⟨hperm.mem_iff.mpr hmK, by simp [h0]⟩
  · intro u mid v hsplit
    exact absurd hsplit (by simp)

lemma topo_initFuel (results : List RepoResult) (initOrder : List String)
    (hperm : List.Perm initOrder (moduleKeys results)) :
    (sortStrings (initOrder.filter (fun m => inDegree0 results m == 0))).length
      + posCount results (inDegree0 results) ≤ results.length + 1 := by
  have h1 : (sortStrings (initOrder.filter (fun m => inDegree0 results m == 0))).length
      = (moduleKeys results).countP (fun m => inDegree0 results m == 0) := by
    rw [(sortStrings_perm _).length_eq, ← List.countP_eq_length_filter]
    exact hperm.countP_eq _
  have hdisj : ∀ a ∈ moduleKeys results,
      ¬((inDegree0 results a == 0) = true ∧ decide (0 < inDegree0 results a) = true) := by
    intro a _ hcon
    have h2 : inDegree0 results a = 0 := by
      have := hcon.1
      simpa using this
    have h3 : 0 < inDegree0 results a := of_decide_eq_true hcon.2
    omega
  have h2 := countP_add_le (moduleKeys results)
    (fun m => inDegree0 results m == 0)
    (fun m => decide (0 < inDegree0 results m)) hdisj
  have h3 := moduleKeys_length_le results
  unfold posCount
  omega

/-- Running `kahnRun` on a valid map iteration order empties the queue,
establishes the final invariant, and emits the sorted initial ready set
first. -/
lemma kahnRun_inv (results : List RepoResult) (initOrder : List String)
    (hperm : List.Perm initOrder (moduleKeys results)) :
    (kahnRun results initOrder).2.2 = [] ∧
    KahnInv results (kahnRun results initOrder).2.1 [] (kahnRun results initOrder).1 ∧
    sortStrings (initOrder.filter (fun m => inDegree0 results m == 0)) <+:
      (kahnRun results initOrder).1 := by
  obtain ⟨Pf, degF, heq, hinv, hpre⟩ := kahnLoop_spec results (results.length + 1)
    (inDegree0 results)
    (sortStrings (initOrder.filter (fun m => inDegree0 results m == 0))) []
    (topo_initInv results initOrder hperm) (topo_initFuel results initOrder hperm)
  have hrun : kahnRun results initOrder = (Pf, degF, []) := by
    unfold kahnRun
    exact heq
  rw [hrun]
  rw [List.nil_append] at hpre
  exact ⟨rfl, hinv, hpre⟩

lemma topo_ordered_names (results : List RepoResult) (initOrder cycleOrder : List String)
    (hperm : List.Perm initOrder (moduleKeys results)) :
    (TopologicalSort results initOrder cycleOrder).1.map (fun r => r.ModuleName)
      = (kahnRun results initOrder).1 := by
  obtain ⟨-, hinv, -⟩ := kahnRun_inv results initOrder hperm
  have hsub : ∀ m ∈ (kahnRun results initOrder).1, m ∈ moduleKeys results := by
    intro m hm
    exact hinv.sub m (by rw [List.append_nil]; exact hm)
  have h1 : (TopologicalSort results initOrder cycleOrder).1
      = (kahnRun results initOrder).1.filterMap (moduleToResult results) := rfl
  rw [h1]
  exact filterMap_moduleToResult_names hsub

lemma topo_cyclic_eq (results : List RepoResult) (initOrder cycleOrder : List String) :
    (TopologicalSort results initOrder cycleOrder).2
      = cycleOrder.filter (fun m => decide (0 < (kahnRun results initOrder).2.1 m)) := rfl

/-! ### Consequences of the final invariant -/

lemma final_mem {results : List RepoResult} {degF : String → Int} {P : List String}
    (hinv : KahnInv results degF [] P) {m : String} (hm : m ∈ moduleKeys results) :
    m ∈ P ↔ degF m ≤ 0 := by
  have := hinv.mem m hm
  simpa using this

/-- Every node all of whose transitive dependency sources are acyclic
(accessible in the edge relation) ends up popped. -/
lemma final_complete {results : List RepoResult} {degF : String → Int} {P : List String}
    (hinv : KahnInv results degF [] P) :
    ∀ m, Acc (fun d m => m ∈ dependentsOf results d) m →
      m ∈ moduleKeys results → m ∈ P := by
  intro m hacc
  induction hacc with
  | intro x hx ih =>
      intro hxK
      have hz : remainingInDeg results P x = 0 := by
        rw [remainingInDeg_zero_iff]
        intro d hdK hc
        have hxd : x ∈ dependentsOf results d := List.one_le_count_iff.mp hc
        exact ih d hxd hdK
      have hdeg : degF x ≤ 0 := by
        rw [hinv.degEq x hxK, hz]
        simp
      exact (final_mem hinv hxK).mpr hdeg

/-- A node on a two-cycle is never popped. -/
lemma final_not_mem {results : List RepoResult} {degF : String → Int} {P : List String}
    (hinv : KahnInv results degF [] P) {a b : String}
    (hab : a ∈ dependentsOf results b) (hba : b ∈ dependentsOf results a) :
    a ∉ P := by
  intro haP
  obtain ⟨u, v, huv⟩ := List.append_of_mem haP
  have hbu : b ∈ u := hinv.closed u a v huv b hab
  obtain ⟨u₁, u₂, hu⟩ := List.append_of_mem hbu
  have h2 : P = u₁ ++ b :: (u₂ ++ a :: v) := by
    rw [huv, hu]
    simp
  have hau : a ∈ u₁ := hinv.closed u₁ b (u₂ ++ a :: v) h2 a hba
  have hnd : P.Nodup := by
    have := hinv.nodup
    rwa [List.append_nil] at this
  rw [huv] at hnd
  have hmid := List.nodup_middle.mp hnd
  have hnotin : a ∉ u ++ v := (List.nodup_cons.mp hmid).1
  exact hnotin (List.mem_append_left _ (by rw [hu]; exact List.mem_append_left _ hau))

/-- Popped nodes respect dependency order: the sources of a popped node's
incoming edges appear strictly earlier. -/
lemma final_chain {results : List RepoResult} {degF : String → Int} {P : List String}
    (hinv : KahnInv results degF [] P) {a b c : String}
    (hab : a ∈ dependentsOf results b) (hbc : b ∈ dependentsOf results c)
    (haP : a ∈ P) :
    ∃ u v w x, P = u ++ c :: v ++ b :: w ++ a :: x := by
  obtain ⟨s, t, hst⟩ := List.append_of_mem haP
  have hbs : b ∈ s := hinv.closed s a t hst b hab
  obtain ⟨s₁, s₂, hs⟩ := List.append_of_mem hbs
  have h2 : P = s₁ ++ b :: (s₂ ++ a :: t) := by
    rw [hst, hs]
    simp
  have hcs : c ∈ s₁ := hinv.closed s₁ b (s₂ ++ a :: t) h2 c hbc
  obtain ⟨p, q, hp⟩ := List.append_of_mem hcs
  refine ⟨p, q, s₂, t, ?_⟩
  rw [hst, hs, hp]

/-! ### Claim theorems for the topological sort -/

/-- C1 (amended): the tie-break rule holds for the INITIAL ready set only —
`TopologicalSort` sorts the zero-in-degree keys lexicographically and emits
them first (they form a sorted prefix of the ordered output), but
later-readied nodes join a FIFO queue behind it rather than a global
priority queue (see the counterexample for the original claim). -/
theorem topo_initial_sorted_prefix (results : List RepoResult)
    (initOrder cycleOrder : List String)
    (hperm : List.Perm initOrder (moduleKeys results)) :
    List.Sorted (fun a b : String => strLe a b = true)
      (sortStrings (initOrder.filter (fun m => inDegree0 results m == 0))) ∧
    sortStrings (initOrder.filter (fun m => inDegree0 results m == 0)) <+:
      (TopologicalSort results initOrder cycleOrder).1.map (fun r => r.ModuleName) := by
  obtain ⟨-, -, hpre⟩ := kahnRun_inv results initOrder hperm
  refine ⟨sortStrings_sorted _, ?_⟩
  rw [topo_ordered_names results initOrder cycleOrder hperm]
  exact hpre

theorem topo_initial_sorted_prefix_witness :
    List.Perm ["b", "c", "a"] (moduleKeys [cexB, cexC, cexA]) ∧
    (List.Sorted (fun a b : String => strLe a b = true)
      (sortStrings ((["b", "c", "a"] : List String).filter
        (fun m => inDegree0 [cexB, cexC, cexA] m == 0))) ∧
    sortStrings ((["b", "c", "a"] : List String).filter
        (fun m => inDegree0 [cexB, cexC, cexA] m == 0)) <+:
      (TopologicalSort [cexB, cexC, cexA] ["b", "c", "a"] ["b", "c", "a"]).1.map
        (fun r => r.ModuleName)) :=
  ⟨by decide,
    topo_initial_sorted_prefix [cexB, cexC, cexA] ["b", "c", "a"] ["b", "c", "a"] (by decide)⟩

/-- C4 (amended): the ordered output is independent of the map iteration
orders (byte-identical across runs), and the cyclic list always holds the
same identities, but only up to permutation — its order follows the
iteration order of the final `range inDegree` loop (see the counterexample
for the original claim). -/
theorem topo_deterministic (results : List RepoResult)
    (i₁ c₁ i₂ c₂ : List String)
    (h₁ : List.Perm i₁ (moduleKeys results)) (h₂ : List.Perm i₂ (moduleKeys results))
    (hc₁ : List.Perm c₁ (moduleKeys results)) (hc₂ : List.Perm c₂ (moduleKeys results)) :
    (TopologicalSort results i₁ c₁).1 = (TopologicalSort results i₂ c₂).1 ∧
    List.Perm (TopologicalSort results i₁ c₁).2 (TopologicalSort results i₂ c₂).2 := by
  have hq : sortStrings (i₁.filter (fun m => inDegree0 results m == 0))
      = sortStrings (i₂.filter (fun m => inDegree0 results m == 0)) :=
    sortStrings_congr ((h₁.trans h₂.symm).filter _)
  have hrun : kahnRun results i₁ = kahnRun results i₂ := by
    unfold kahnRun
    rw [hq]
  constructor
  · have e₁ : (TopologicalSort results i₁ c₁).1
        = (kahnRun results i₁).1.filterMap (moduleToResult results) := rfl
    have e₂ : (TopologicalSort results i₂ c₂).1
        = (kahnRun results i₂).1.filterMap (moduleToResult results) := rfl
    rw [e₁, e₂, hrun]
  · rw [topo_cyclic_eq, topo_cyclic_eq, hrun]
    exact (hc₁.trans hc₂.symm).filter _

theorem topo_deterministic_witness :
    List.Perm ["a", "b", "z"] (moduleKeys [cycA, cycB, cycZ]) ∧
    List.Perm ["b", "z", "a"] (moduleKeys [cycA, cycB, cycZ]) ∧
    ((TopologicalSort [cycA, cycB, cycZ] ["a", "b", "z"] ["a", "b", "z"]).1
        = (TopologicalSort [cycA, cycB, cycZ] ["b", "z", "a"] ["b", "z", "a"]).1 ∧
      List.Perm (TopologicalSort [cycA, cycB, cycZ] ["a", "b", "z"] ["a", "b", "z"]).2
        (TopologicalSort [cycA, cycB, cycZ] ["b", "z", "a"] ["b", "z", "a"]).2) :=
  ⟨by decide, by decide,
    topo_deterministic [cycA, cycB, cycZ] ["a", "b", "z"] ["a", "b", "z"]
      ["b", "z", "a"] ["b", "z", "a"] (by decide) (by decide) (by decide) (by decide)⟩

/-- C5: on an input with a two-node dependency cycle a↔b, `TopologicalSort`
reports both cycle members in the cyclic list and includes neither in the
ordered output; every acyclic node (accessible in the edge relation, hence
unrelated to any cycle) still appears in the ordered output and not in the
cyclic list; and the Kahn loop terminates with an empty ready queue within
its fuel. -/
theorem topo_cycle_handling (results : List RepoResult)
    (initOrder cycleOrder : List String)
    (hperm : List.Perm initOrder (moduleKeys results))
    (hcyc : List.Perm cycleOrder (moduleKeys results))
    {a b : String}
    (hab : a ∈ dependentsOf results b) (hba : b ∈ dependentsOf results a) :
    (a ∈ (TopologicalSort results initOrder cycleOrder).2 ∧
      b ∈ (TopologicalSort results initOrder cycleOrder).2) ∧
    (a ∉ (TopologicalSort results initOrder cycleOrder).1.map (fun r => r.ModuleName) ∧
      b ∉ (TopologicalSort results initOrder cycleOrder).1.map (fun r => r.ModuleName)) ∧
    (∀ z ∈ moduleKeys results, Acc (fun d m => m ∈ dependentsOf results d) z →
      z ∈ (TopologicalSort results initOrder cycleOrder).1.map (fun r => r.ModuleName) ∧
        z ∉ (TopologicalSort results initOrder cycleOrder).2) ∧
    (kahnRun results initOrder).2.2 = [] := by
  obtain ⟨hqempty, hinv, -⟩ := kahnRun_inv results initOrder hperm
  have haK : a ∈ moduleKeys results := (mem_dependentsOf_keys hab).1
  have hbK : b ∈ moduleKeys results := (mem_dependentsOf_keys hba).1
  have haP : a ∉ (kahnRun results initOrder).1 := final_not_mem hinv hab hba
  have hbP : b ∉ (kahnRun results initOrder).1 := final_not_mem hinv hba hab
  have hnames := topo_ordered_names results initOrder cycleOrder hperm
  have hcycEq := topo_cyclic_eq results initOrder cycleOrder
  have hposa : 0 < (kahnRun results initOrder).2.1 a := by
    have h2 : ¬ ((kahnRun results initOrder).2.1 a ≤ 0) :=
      fun hle => haP ((final_mem hinv haK).mpr hle)
    omega
  refine ⟨⟨?_, ?_⟩, ⟨?_, ?_⟩, ?_, hqempty⟩
  · rw [hcycEq, List.mem_filter]
    exact ⟨hcyc.mem_iff.mpr haK, by simpa using hposa⟩
  · have hposb : 0 < (kahnRun results initOrder).2.1 b := by
      have h2 : ¬ ((kahnRun results initOrder).2.1 b ≤ 0) :=
        fun hle => hbP ((final_mem hinv hbK).mpr hle)
      omega
    rw [hcycEq, List.mem_filter]
    exact ⟨hcyc.mem_iff.mpr hbK, by simpa using hposb⟩
  · rw [hnames]
    exact haP
  · rw [hnames]
    exact hbP
  · intro z hzK hzAcc
    have hzP : z ∈ (kahnRun results initOrder).1 := final_complete hinv z hzAcc hzK
    have hzdeg : (kahnRun results initOrder).2.1 z ≤ 0 := (final_mem hinv hzK).mp hzP
    constructor
    · rw [hnames]
      exact hzP
    · rw [hcycEq, List.mem_filter]
      rintro ⟨-, hzpos⟩
      have : 0 < (kahnRun results initOrder).2.1 z := by simpa using hzpos
      omega

end GitScan
namespace GitScan

theorem topo_cycle_handling_witness :
    List.Perm ["a", "b", "z"] (moduleKeys [cycA, cycB, cycZ]) ∧
    "a" ∈ dependentsOf [cycA, cycB, cycZ] "b" ∧
    "b" ∈ dependentsOf [cycA, cycB, cycZ] "a" ∧
    (("a" ∈ (TopologicalSort [cycA, cycB, cycZ] ["a", "b", "z"] ["a", "b", "z"]).2 ∧
      "b" ∈ (TopologicalSort [cycA, cycB, cycZ] ["a", "b", "z"] ["a", "b", "z"]).2) ∧
    ("a" ∉ (TopologicalSort [cycA, cycB, cycZ] ["a", "b", "z"] ["a", "b", "z"]).1.map
        (fun r => r.ModuleName) ∧
      "b" ∉ (TopologicalSort [cycA, cycB, cycZ] ["a", "b", "z"] ["a", "b", "z"]).1.map
        (fun r => r.ModuleName)) ∧
    (∀ z ∈ moduleKeys [cycA, cycB, cycZ],
        Acc (fun d m => m ∈ dependentsOf [cycA, cycB, cycZ] d) z →
      z ∈ (TopologicalSort [cycA, cycB, cycZ] ["a", "b", "z"] ["a", "b", "z"]).1.map
          (fun r => r.ModuleName) ∧
        z ∉ (TopologicalSort [cycA, cycB, cycZ] ["a", "b", "z"] ["a", "b", "z"]).2) ∧
    (kahnRun [cycA, cycB, cycZ] ["a", "b", "z"]).2.2 = []) :=
  ⟨by decide, by decide, by decide,
    topo_cycle_handling [cycA, cycB, cycZ] ["a", "b", "z"] ["a", "b", "z"]
      (by decide) (by decide) (by decide) (by decide)⟩

/-- C6: whenever a depends on b (edge b → a) and b depends on c (edge
c → b) among the managed modules and a is acyclic (accessible in the edge
relation), the ordered output lists c strictly before b strictly before a. -/
theorem topo_chain_order (results : List RepoResult)
    (initOrder cycleOrder : List String)
    (hperm : List.Perm initOrder (moduleKeys results))
    {a b c : String}
    (hab : a ∈ dependentsOf results b) (hbc : b ∈ dependentsOf results c)
    (hacc : Acc (fun d m => m ∈ dependentsOf results d) a) :
    ∃ u v w x,
      (TopologicalSort results initOrder cycleOrder).1.map (fun r => r.ModuleName)
        = u ++ c :: v ++ b :: w ++ a :: x := by
  obtain ⟨-, hinv, -⟩ := kahnRun_inv results initOrder hperm
  have haK : a ∈ moduleKeys results := (mem_dependentsOf_keys hab).1
  have haP : a ∈ (kahnRun results initOrder).1 := final_complete hinv a hacc haK
  obtain ⟨u, v, w, x, hsplit⟩ := final_chain hinv hab hbc haP
  refine ⟨u, v, w, x, ?_⟩
  rw [topo_ordered_names results initOrder cycleOrder hperm]
  exact hsplit

/-- A three-module chain: `a` depends on `b`, which depends on `c`. -/
def chA : RepoResult := { Name := "a", ModuleName := "a", Dependencies := ["b"] }
def chB : RepoResult := { Name := "b", ModuleName := "b", Dependencies := ["c"] }
def chC : RepoResult := { Name := "c", ModuleName := "c" }

theorem topo_chain_order_witness :
    List.Perm ["a", "b", "c"] (moduleKeys [chA, chB, chC]) ∧
    "a" ∈ dependentsOf [chA, chB, chC] "b" ∧
    "b" ∈ dependentsOf [chA, chB, chC] "c" ∧
    ∃ u v w x,
      (TopologicalSort [chA, chB, chC] ["a", "b", "c"] ["a", "b", "c"]).1.map
          (fun r => r.ModuleName)
        = u ++ "c" :: v ++ "b" :: w ++ "a" :: x := by
  have hkeys : ∀ y : String, y ∈ moduleKeys [chA, chB, chC] →
      y = "a" ∨ y = "b" ∨ y = "c" := by
    intro y hy
    rw [show moduleKeys [chA, chB, chC] = ["a", "b", "c"] from by decide] at hy
    simpa using hy
  have hnc : ∀ y : String, ¬ ("c" ∈ dependentsOf [chA, chB, chC] y) := by
    intro y hy
    rcases hkeys y (mem_dependentsOf_keys hy).2 with rfl | rfl | rfl
    · revert hy; decide
    · revert hy; decide
    · revert hy; decide
  have hpb : ∀ y : String, "b" ∈ dependentsOf [chA, chB, chC] y → y = "c" := by
    intro y hy
    rcases hkeys y (mem_dependentsOf_keys hy).2 with rfl | rfl | rfl
    · revert hy; decide
    · revert hy; decide
    · rfl
  have hpa : ∀ y : String, "a" ∈ dependentsOf [chA, chB, chC] y → y = "b" := by
    intro y hy
    rcases hkeys y (mem_dependentsOf_keys hy).2 with rfl | rfl | rfl
    · revert hy; decide
    · rfl
    · revert hy; decide
  have haccC : Acc (fun d m => m ∈ dependentsOf [chA, chB, chC] d) "c" :=
    Acc.intro _ (fun y hy => absurd hy (hnc y))
  have haccB : Acc (fun d m => m ∈ dependentsOf [chA, chB, chC] d) "b" :=
    Acc.intro _ (fun y hy => (hpb y hy) ▸ haccC)
  have haccA : Acc (fun d m => m ∈ dependentsOf [chA, chB, chC] d) "a" :=
    Acc.intro _ (fun y hy => (hpa y hy) ▸ haccB)
  exact ⟨by decide, by decide, by decide,
    topo_chain_order [chA, chB, chC] ["a", "b", "c"] ["a", "b", "c"]
      (by decide) (by decide) (by decide) haccA⟩

end GitScan
namespace GitScan

/-! ### GetTransitiveDependents (scanner.go:437-495) -/

/-- The key set of the `seedModules` map: distinct non-empty seed module
names in first-insertion order. -/
def seedKeys (seeds : List RepoResult) : List String :=
  ((seeds.map (fun r => r.ModuleName)).filter (fun m => !(m == ""))).dedup

/-- Embeds the inner loop over a popped node's dependents in the BFS:
unvisited dependents are marked visited and enqueued. -/
def bfsEnq : List String → List String → List String → List String × List String
  | visited, queue, [] => (visited, queue)
  | visited, queue, d :: ds =>
      if d ∈ visited then bfsEnq visited queue ds
      else bfsEnq (visited ++ [d]) (queue ++ [d]) ds

/-- Embeds the BFS loop of `GetTransitiveDependents`; `visited` is the
mark log (each node appended when marked), returned when the queue
empties. -/
def bfsLoop (results : List RepoResult) : Nat → List String → List String → List String
  | 0, visited, _ => visited
  | _ + 1, visited, [] => visited
  | fuel + 1, visited, mod :: rest =>
      let p := bfsEnq visited rest (dependentsOf results mod)
      bfsLoop results fuel p.1 p.2

/-- Embeds `GetTransitiveDependents`: BFS from the seed identities over the
reverse-dependency graph, then collect the visited facts in input order.
`seedOrder` is the Go map iteration order over the `seedModules` keys. -/
def GetTransitiveDependents (_seeds allResults : List RepoResult)
    (seedOrder : List String) : List RepoResult :=
  let visited := bfsLoop allResults (seedOrder.length + allResults.length + 1)
    seedOrder seedOrder
  allResults.filter (fun r => !(r.ModuleName == "") && decide (r.ModuleName ∈ visited))

lemma bfsEnq_spec : ∀ (ds visited queue : List String), ∃ new,
    (bfsEnq visited queue ds).1 = visited ++ new ∧
    (bfsEnq visited queue ds).2 = queue ++ new ∧
    new.Nodup ∧
    (∀ m, m ∈ new ↔ m ∈ ds ∧ m ∉ visited)
  | [], visited, queue =>
      ⟨[], by simp [bfsEnq], by simp [bfsEnq], List.nodup_nil, by simp⟩
  | d :: ds, visited, queue => by
      by_cases hd : d ∈ visited
      · obtain ⟨new, h1, h2, h3, h4⟩ := bfsEnq_spec ds visited queue
        refine ⟨new, ?_, ?_, h3, ?_⟩
        · rw [show bfsEnq visited queue (d :: ds) = bfsEnq visited queue ds from by
            simp [bfsEnq, hd]]
          exact h1
        · rw [show bfsEnq visited queue (d :: ds) = bfsEnq visited queue ds from by
            simp [bfsEnq, hd]]
          exact h2
        · intro m
          rw [h4 m]
          constructor
          · rintro ⟨hm, hnv⟩
            exact ⟨List.mem_cons_of_mem d hm, hnv⟩
          · rintro ⟨hm, hnv⟩
            rcases List.mem_cons.mp hm with rfl | hm2
            · exact absurd hd hnv
            · exact ⟨hm2, hnv⟩
      · obtain ⟨new2, h1, h2, h3, h4⟩ := bfsEnq_spec ds (visited ++ [d]) (queue ++ [d])
        have hstep : bfsEnq visited queue (d :: ds)
            = bfsEnq (visited ++ [d]) (queue ++ [d]) ds := by
          simp [bfsEnq, hd]
        have hdnot : d ∉ new2 := fun hc => ((h4 d).mp hc).2 (by simp)
        refine ⟨d :: new2, ?_, ?_, List.nodup_cons.mpr ⟨hdnot, h3⟩, ?_⟩
        · rw [hstep, h1]
          simp
        · rw [hstep, h2]
          simp
        · intro m
          constructor
          · intro hm
            rcases List.mem_cons.mp hm with rfl | hm2
            · exact ⟨by simp, hd⟩
            · obtain ⟨hds, hnv⟩ := (h4 m).mp hm2
              exact ⟨List.mem_cons_of_mem d hds,
                fun hc => hnv (List.mem_append_left _ hc)⟩
          · rintro ⟨hm, hnv⟩
            rcases List.mem_cons.mp hm with rfl | hm2
            · exact List.mem_cons_self m new2
            · by_cases hmd : m = d
              · rw [hmd]
                exact List.mem_cons_self d new2
              · refine List.mem_cons_of_mem d ((h4 m).mpr ⟨hm2, ?_⟩)
                rw [List.mem_append]
                rintro (hc | hc)
                · exact hnv hc
                · exact hmd (by simpa using hc)

/-- Invariant of the BFS: the mark log is the processed nodes followed by
the queue, has no duplicates, contains only nodes reachable from a seed,
contains every seed, and every processed node's dependents are marked. -/
structure BfsInv (results : List RepoResult) (seedsK : List String)
    (visited queue processed : List String) : Prop where
  hv : visited = processed ++ queue
  nodup : visited.Nodup
  sound : ∀ m ∈ visited, ∃ s ∈ seedsK,
    Relation.ReflTransGen (fun d m => m ∈ dependentsOf results d) s m
  seeds : ∀ s ∈ seedsK, s ∈ visited
  closed : ∀ d ∈ processed, ∀ m ∈ dependentsOf results d, m ∈ visited

lemma unvis_step {K : List String} (visited new : List String)
    (hnd : new.Nodup) (hsub : ∀ m ∈ new, m ∈ K) (hdis : ∀ m ∈ new, m ∉ visited) :
    (K.filter (fun m => decide (m ∉ visited ++ new))).length + new.length
      ≤ (K.filter (fun m => decide (m ∉ visited))).length := by
  rw [← List.countP_eq_length_filter, ← List.countP_eq_length_filter]
  have hsplit := countP_split K (fun m => decide (m ∉ visited)) (fun m => decide (m ∈ new))
  have h1 : K.countP (fun m => decide (m ∉ visited ++ new))
      = K.countP (fun a => decide (a ∉ visited) && !(decide (a ∈ new))) := by
    apply List.countP_congr
    intro a _
    by_cases hv : a ∈ visited <;> by_cases hn : a ∈ new <;>
      simp [hv, hn, List.mem_append]
  have h2 : new.length ≤ K.countP (fun a => decide (a ∉ visited) && decide (a ∈ new)) := by
    have hsub2 : new ⊆ K.filter (fun a => decide (a ∉ visited) && decide (a ∈ new)) := by
      intro m hm
      rw [List.mem_filter]
      exact ⟨hsub m hm, by simp [hdis m hm, hm]⟩
    have h3 := (List.subperm_of_subset hnd hsub2).length_le
    rwa [← List.countP_eq_length_filter] at h3
  omega

lemma bfsLoop_spec (results : List RepoResult) (seedsK : List String) :
    ∀ (fuel : Nat) (visited queue processed : List String),
      BfsInv results seedsK visited queue processed →
      queue.length
        + ((moduleKeys results).filter (fun m => decide (m ∉ visited))).length ≤ fuel →
      BfsInv results seedsK (bfsLoop results fuel visited queue) []
        (bfsLoop results fuel visited queue)
  | 0, visited, queue, processed => fun hinv hfuel => by
      have hq : queue = [] := by
        cases queue with
        | nil => rfl
        | cons a q => simp [List.length_cons] at hfuel
      subst hq
      have hvp : visited = processed := by
        have h0 := hinv.hv
        rwa [List.append_nil] at h0
      have hred : bfsLoop results 0 visited [] = visited := rfl
      rw [hred]
      exact ⟨(List.append_nil _).symm, hinv.nodup, hinv.sound, hinv.seeds,
        fun d hd m hm => hinv.closed d (hvp ▸ hd) m hm⟩
  | fuel + 1, visited, [], processed => fun hinv _ => by
      have hvp : visited = processed := by
        have h0 := hinv.hv
        rwa [List.append_nil] at h0
      have hred : bfsLoop results (fuel + 1) visited [] = visited := rfl
      rw [hred]
      exact ⟨(List.append_nil _).symm, hinv.nodup, hinv.sound, hinv.seeds,
        fun d hd m hm => hinv.closed d (hvp ▸ hd) m hm⟩
  | fuel + 1, visited, mod :: rest, processed => fun hinv hfuel => by
      obtain ⟨new, h1, h2, h3, h4⟩ := bfsEnq_spec (dependentsOf results mod) visited rest
      have hmodv : mod ∈ visited := by
        rw [hinv.hv]
        exact List.mem_append_right _ (by simp)
      have hdis : ∀ m ∈ new, m ∉ visited := fun m hm => ((h4 m).mp hm).2
      have hsubK : ∀ m ∈ new, m ∈ moduleKeys results := fun m hm =>
        (mem_dependentsOf_keys ((h4 m).mp hm).1).1
      have hinv2 : BfsInv results seedsK (visited ++ new) (rest ++ new)
          (processed ++ [mod]) := by
        constructor
        · rw [hinv.hv]
          simp
        · refine hinv.nodup.append h3 ?_
          intro m hmv hmn
          exact hdis m hmn hmv
        · intro m hm
          rcases List.mem_append.mp hm with h | h
          · exact hinv.sound m h
          · obtain ⟨s, hs, hreach⟩ := hinv.sound mod hmodv
            exact ⟨s, hs, hreach.tail ((h4 m).mp h).1⟩
        · intro s hs
          exact List.mem_append_left _ (hinv.seeds s hs)
        · intro d hd m hm
          rcases List.mem_append.mp hd with h | h
          · exact List.mem_append_left _ (hinv.closed d h m hm)
          · have hdm : d = mod := by simpa using h
            by_cases hmv : m ∈ visited
            · exact List.mem_append_left _ hmv
            · refine List.mem_append_right _ ((h4 m).mpr ⟨?_, hmv⟩)
              rw [← hdm]
              exact hm
      have hmeasure : (rest ++ new).length
          + ((moduleKeys results).filter (fun m => decide (m ∉ visited ++ new))).length
          ≤ fuel := by
        have hstep := unvis_step (K := moduleKeys results) visited new h3 hsubK hdis
        have hf : (mod :: rest).length
            + ((moduleKeys results).filter (fun m => decide (m ∉ visited))).length
            ≤ fuel + 1 := hfuel
        rw [List.length_cons] at hf
        rw [List.length_append]
        omega
      have hrec := bfsLoop_spec results seedsK fuel (visited ++ new) (rest ++ new)
        (processed ++ [mod]) hinv2 hmeasure
      have hunfold : bfsLoop results (fuel + 1) visited (mod :: rest)
          = bfsLoop results fuel
            (bfsEnq visited rest (dependentsOf results mod)).1
            (bfsEnq visited rest (dependentsOf results mod)).2 := rfl
      rw [hunfold, h1, h2]
      exact hrec

/-- In the final BFS state the mark log is exactly the set of nodes
reachable from a seed. -/
lemma bfs_final_char {results : List RepoResult} {seedsK Vf : List String}
    (hinv : BfsInv results seedsK Vf [] Vf) :
    ∀ m, m ∈ Vf ↔ ∃ s ∈ seedsK,
      Relation.ReflTransGen (fun d m => m ∈ dependentsOf results d) s m := by
  intro m
  constructor
  · exact hinv.sound m
  · rintro ⟨s, hs, hreach⟩
    induction hreach with
    | refl => exact hinv.seeds s hs
    | tail hxz hzy ih => exact hinv.closed _ ih _ hzy

end GitScan
namespace GitScan

/-- C7: GetTransitiveDependents returns exactly the facts with non-empty
identity reachable in the reverse-dependency graph from some seed identity
(seeds included, via the reflexive closure); the BFS mark log has no
duplicates, so each node is enqueued at most once; and for seeds {C} over
the chain a→b→c it returns all three facts. -/
theorem getTransitiveDependents_spec (seeds allResults : List RepoResult)
    (seedOrder : List String)
    (hperm : List.Perm seedOrder (seedKeys seeds)) :
    (∀ r, r ∈ GetTransitiveDependents seeds allResults seedOrder ↔
      r ∈ allResults ∧ r.ModuleName ≠ "" ∧
      ∃ s ∈ seedKeys seeds,
        Relation.ReflTransGen (fun d m => m ∈ dependentsOf allResults d)
          s r.ModuleName) ∧
    (bfsLoop allResults (seedOrder.length + allResults.length + 1)
      seedOrder seedOrder).Nodup ∧
    GetTransitiveDependents [chC] [chA, chB, chC] ["c"] = [chA, chB, chC] := by
  have hnd : seedOrder.Nodup := hperm.nodup_iff.mpr (List.nodup_dedup _)
  have hinv0 : BfsInv allResults (seedKeys seeds) seedOrder seedOrder [] := by
    constructor
    · rw [List.nil_append]
    · exact hnd
    · intro m hm
      exact ⟨m, hperm.mem_iff.mp hm, Relation.ReflTransGen.refl⟩
    · intro s hs
      exact hperm.mem_iff.mpr hs
    · intro d hd
      exact absurd hd (List.not_mem_nil d)
  have hfuel : seedOrder.length
      + ((moduleKeys allResults).filter (fun m => decide (m ∉ seedOrder))).length
      ≤ seedOrder.length + allResults.length + 1 := by
    have h1 : ((moduleKeys allResults).filter (fun m => decide (m ∉ seedOrder))).length
        ≤ (moduleKeys allResults).length := (List.filter_sublist _).length_le
    have h2 := moduleKeys_length_le allResults
    omega
  have hfinal := bfsLoop_spec allResults (seedKeys seeds)
    (seedOrder.length + allResults.length + 1) seedOrder seedOrder [] hinv0 hfuel
  have hchar := bfs_final_char hfinal
  refine ⟨?_, hfinal.nodup, by decide⟩
  intro r
  have hmem : r ∈ GetTransitiveDependents seeds allResults seedOrder ↔
      r ∈ allResults ∧ (!(r.ModuleName == "") && decide (r.ModuleName ∈
        bfsLoop allResults (seedOrder.length + allResults.length + 1)
          seedOrder seedOrder)) = true := List.mem_filter
  rw [hmem]
  constructor
  · rintro ⟨h1, h2⟩
    rw [Bool.and_eq_true] at h2
    refine ⟨h1, by simpa using h2.1, ?_⟩
    exact (hchar r.ModuleName).mp (of_decide_eq_true h2.2)
  · rintro ⟨h1, h2, h3⟩
    refine ⟨h1, ?_⟩
    rw [Bool.and_eq_true]
    exact ⟨by simpa using h2, decide_eq_true ((hchar r.ModuleName).mpr h3)⟩

theorem getTransitiveDependents_spec_witness :
    List.Perm ["c"] (seedKeys [chC]) ∧
    ((∀ r, r ∈ GetTransitiveDependents [chC] [chA, chB, chC] ["c"] ↔
      r ∈ [chA, chB, chC] ∧ r.ModuleName ≠ "" ∧
      ∃ s ∈ seedKeys [chC],
        Relation.ReflTransGen (fun d m => m ∈ dependentsOf [chA, chB, chC] d)
          s r.ModuleName) ∧
    (bfsLoop [chA, chB, chC] ((["c"] : List String).length + ([chA, chB, chC] : List RepoResult).length + 1)
      ["c"] ["c"]).Nodup ∧
    GetTransitiveDependents [chC] [chA, chB, chC] ["c"] = [chA, chB, chC]) :=
  ⟨by decide, getTransitiveDependents_spec [chC] [chA, chB, chC] ["c"] (by decide)⟩

end GitScan
